import Mathlib

/-!
Shallow embedding of the `linked_vec` Rust crate: a doubly linked list whose
nodes live in one dense array (`Vec<VecNode<T, I>>`), with head/tail links and
next/prev links stored as physical indices.

Machine integers: physical indices (`usize`) are modelled as `Nat`; the bounded
index type `I : StoreIndex` enters the container operations only through its
maximum representable value `I::MAX_USIZE`, modelled as a parameter `m : Nat`.
Out-of-bounds array indexing panics in Rust; it is unreachable from any state
reachable through the public API (proved via the chain invariant below), and is
modelled by `List.set` (no-op) / a default node.  Operations whose Rust form
can panic on capacity overflow (`push_*`), or on an out-of-bounds argument
(`swap_remove`, `swap_p`), return `Option` (`none` = panic).
-/

namespace LinkedVecSpec

/-- Mirrors `VecNode<T, I>`: one physical slot holding a payload and optional
next/prev physical links (`src/inner_types.rs`). -/
structure VecNode (T : Type) where
  payload : T
  next : Option Nat
  prev : Option Nat
deriving Repr, DecidableEq

instance [Inhabited T] : Inhabited (VecNode T) := ⟨⟨default, none, none⟩⟩

/-- Mirrors `VecNode::new`: fresh node with no links. -/
def VecNode.new {T : Type} (payload : T) : VecNode T := ⟨payload, none, none⟩

/-- Mirrors `LinkedVec<T, I>`: dense array of nodes plus head/tail links
(`src/lib.rs`). -/
structure LinkedVec (T : Type) where
  data : List (VecNode T)
  head : Option Nat
  tail : Option Nat
deriving Repr, DecidableEq

variable {T : Type}

/-- Mirrors `LinkedVec::new`. -/
def LinkedVec.new : LinkedVec T := ⟨[], none, none⟩

/-- Reads `data[i]`; Rust panics when `i` is out of bounds, which is
unreachable from reachable states, so the default node stands for the panic. -/
def nodeAt [Inhabited T] (lv : LinkedVec T) (i : Nat) : VecNode T :=
  lv.data[i]?.getD default

/-- Mirrors `LinkedVec::get_next`: `next` of the indexed node, or `head` if
`None`. -/
def getNext [Inhabited T] (lv : LinkedVec T) (target : Option Nat) : Option Nat :=
  match target with
  | some i => (nodeAt lv i).next
  | none => lv.head

/-- Mirrors `LinkedVec::get_prev`: `prev` of the indexed node, or `tail` if
`None`. -/
def getPrev [Inhabited T] (lv : LinkedVec T) (target : Option Nat) : Option Nat :=
  match target with
  | some i => (nodeAt lv i).prev
  | none => lv.tail

/-- Mirrors `LinkedVec::set_next`: sets `next` of the indexed node, or `head`
if `None`. -/
def setNext [Inhabited T] (lv : LinkedVec T) (target value : Option Nat) : LinkedVec T :=
  match target with
  | some i => { lv with data := lv.data.set i { nodeAt lv i with next := value } }
  | none => { lv with head := value }

/-- Mirrors `LinkedVec::set_prev`: sets `prev` of the indexed node, or `tail`
if `None`. -/
def setPrev [Inhabited T] (lv : LinkedVec T) (target value : Option Nat) : LinkedVec T :=
  match target with
  | some i => { lv with data := lv.data.set i { nodeAt lv i with prev := value } }
  | none => { lv with tail := value }

/-- Mirrors `LinkedVec::pair`: `set_next(first, second); set_prev(second, first)`
in that order. -/
def pair [Inhabited T] (lv : LinkedVec T) (first second : Option Nat) : LinkedVec T :=
  setPrev (setNext lv first second) second first

/-- Mirrors `LinkedVec::insert_node_before`. -/
def insertNodeBefore [Inhabited T] (lv : LinkedVec T) (inserted : Nat)
    (target : Option Nat) : LinkedVec T :=
  let other := getPrev lv target
  pair (pair lv other (some inserted)) (some inserted) target

/-- Mirrors `LinkedVec::insert_node_after`. -/
def insertNodeAfter [Inhabited T] (lv : LinkedVec T) (inserted : Nat)
    (target : Option Nat) : LinkedVec T :=
  let other := getNext lv target
  pair (pair lv target (some inserted)) (some inserted) other

/-- Mirrors `LinkedVec::remove_node_p`: both link arguments are read from the
state before `pair` runs. -/
def removeNodeP [Inhabited T] (lv : LinkedVec T) (target : Nat) : LinkedVec T :=
  pair lv (nodeAt lv target).prev (nodeAt lv target).next

/-- Mirrors `LinkedVec::move_node_p`: the second read (`data[index].next`)
happens after the first `set_next` call, exactly as the Rust statements run. -/
def moveNodeP [Inhabited T] (lv : LinkedVec T) (index : Nat) : LinkedVec T :=
  let lv1 := setNext lv (nodeAt lv index).prev (some index)
  setPrev lv1 (nodeAt lv1 index).next (some index)

/-- Mirrors `LinkedVec::push_p` with `I::MAX_USIZE = m`: panics (`none`) when
`start_len > MAX_USIZE`, else appends a fresh node and returns its index. -/
def pushP [Inhabited T] (m : Nat) (lv : LinkedVec T) (value : T) :
    Option (LinkedVec T × Nat) :=
  let startLen := lv.data.length
  if startLen > m then none
  else some ({ lv with data := lv.data ++ [VecNode.new value] }, startLen)

/-- Mirrors `LinkedVec::push_front`: `push_p` then insert before the current
head (`head` is unchanged by `push_p`). -/
def pushFront [Inhabited T] (m : Nat) (lv : LinkedVec T) (value : T) :
    Option (LinkedVec T) :=
  (pushP m lv value).map (fun p => insertNodeBefore p.1 p.2 p.1.head)

/-- Mirrors `LinkedVec::push_back`: `push_p` then insert after the current
tail. -/
def pushBack [Inhabited T] (m : Nat) (lv : LinkedVec T) (value : T) :
    Option (LinkedVec T) :=
  (pushP m lv value).map (fun p => insertNodeAfter p.1 p.2 p.1.tail)

/-- Mirrors `LinkedVec::in_swap_remove`: unlink slot `index`, then either
`Vec::swap_remove` (move the physically last slot into the hole and repair its
neighbors via `move_node_p`) or, when `index` is already last, `Vec::remove`. -/
def inSwapRemove [Inhabited T] (lv : LinkedVec T) (index : Nat) : T × LinkedVec T :=
  let lv1 := removeNodeP lv index
  if index ≠ lv1.data.length - 1 then
    let payload := (nodeAt lv1 index).payload
    let lastNode := nodeAt lv1 (lv1.data.length - 1)
    let lv2 : LinkedVec T :=
      { lv1 with data := (lv1.data.set index lastNode).dropLast }
    (payload, moveNodeP lv2 index)
  else
    ((nodeAt lv1 index).payload, { lv1 with data := lv1.data.dropLast })

/-- Mirrors `LinkedVec::pop_front`: `None` on empty, else `in_swap_remove` at
the head slot (`head.unwrap()` cannot fail on a reachable non-empty state). -/
def popFront [Inhabited T] (lv : LinkedVec T) : Option (T × LinkedVec T) :=
  if lv.data.length = 0 then none
  else lv.head.map (fun i => inSwapRemove lv i)

/-- Mirrors `LinkedVec::pop_back`: `None` on empty, else `in_swap_remove` at
the tail slot. -/
def popBack [Inhabited T] (lv : LinkedVec T) : Option (T × LinkedVec T) :=
  if lv.data.length = 0 then none
  else lv.tail.map (fun i => inSwapRemove lv i)

/-- Mirrors `LinkedVec::pop`: `None` on empty, else unlink the physically last
slot and `Vec::pop` it. -/
def pop [Inhabited T] (lv : LinkedVec T) : Option (T × LinkedVec T) :=
  if lv.data.length = 0 then none
  else
    let lv1 := removeNodeP lv (lv.data.length - 1)
    some ((nodeAt lv1 (lv1.data.length - 1)).payload,
      { lv1 with data := lv1.data.dropLast })

/-- Mirrors `LinkedVec::swap_remove`: panics (`none`) when the index is out of
bounds, else `in_swap_remove`. -/
def swapRemove [Inhabited T] (lv : LinkedVec T) (index : Nat) :
    Option (T × LinkedVec T) :=
  if index ≥ lv.data.length then none
  else some (inSwapRemove lv index)

/-- Mirrors `LinkedVec::swap_p`: panics (`none`) on out-of-bounds, else swaps
the two payloads in place without touching links. -/
def swapP [Inhabited T] (lv : LinkedVec T) (a b : Nat) : Option (LinkedVec T) :=
  if a < lv.data.length ∧ b < lv.data.length then
    let na := nodeAt lv a
    let nb := nodeAt lv b
    let d := (lv.data.set a { na with payload := nb.payload }).set b
      { nb with payload := na.payload }
    some { lv with data := d }
  else none

/-- Mirrors `LinkedVec::clear`. -/
def clear (_lv : LinkedVec T) : LinkedVec T := ⟨[], none, none⟩

/-- Mirrors `Extend::extend` (`src/iterators.rs`): pushes each item at the back
in order; the best-effort `try_reserve` has no observable effect. -/
def extendList [Inhabited T] (m : Nat) (lv : LinkedVec T) : List T → Option (LinkedVec T)
  | [] => some lv
  | v :: rest => (pushBack m lv v).bind (fun lv1 => extendList m lv1 rest)

/-- Mirrors `IntoIter::next` (`src/iterators.rs`), which repeatedly calls
`pop_front`; the container length bounds the number of steps. -/
def drainFront [Inhabited T] : Nat → LinkedVec T → List T
  | 0, _ => []
  | n + 1, lv =>
    match popFront lv with
    | none => []
    | some p => p.1 :: drainFront n p.2

/-- The list produced by consuming a container through its `IntoIterator`
(`pop_front` until empty). -/
def intoList [Inhabited T] (lv : LinkedVec T) : List T :=
  drainFront lv.data.length lv

/-- Mirrors `LinkedVec::append`: swap `other` with a fresh container, then
`extend` with the drained elements of the old `other`. -/
def appendOp [Inhabited T] (m : Nat) (a b : LinkedVec T) :
    Option (LinkedVec T × LinkedVec T) :=
  (extendList m a (intoList b)).map (fun a1 => (a1, LinkedVec.new))

/-- Models `usize::MAX` on a 64-bit target. -/
def usizeMax : Nat := 2 ^ 64 - 1

/-- Mirrors `TryReserveErrorKind`: index-space overflow versus allocator
exhaustion, the two distinguishable cases of `alloc::collections::TryReserveError`. -/
inductive ReserveErr where
  | capacityOverflow
  | allocError
deriving Repr, DecidableEq

/-- Mirrors `LinkedVec::try_reserve`: when
`I::MAX_USIZE.saturating_add(1) - len < additional` it requests `usize::MAX`
elements from the `Vec`, which always reports `CapacityOverflow` (the nodes are
never zero-sized); otherwise the underlying allocator decides, modelled by the
`allocOk` oracle.  `Vec::try_reserve` never changes the contents, so no
container is returned. -/
def tryReserve (m : Nat) (lv : LinkedVec T) (additional : Nat) (allocOk : Bool) :
    Except ReserveErr Unit :=
  if min (m + 1) usizeMax - lv.data.length < additional then
    Except.error ReserveErr.capacityOverflow
  else if allocOk then Except.ok () else Except.error ReserveErr.allocError

/-! ## Iterators -/

/-- Mirrors the loop of `Iter::next` (`src/iterators.rs`): start at
`head.map_or(0, ..)`, read the node, advance along `next.map_or(0, ..)`,
stop after `len` steps. -/
def iterFrom [Inhabited T] (lv : LinkedVec T) : Nat → Nat → List T
  | _, 0 => []
  | hd, n + 1 => (nodeAt lv hd).payload :: iterFrom lv ((nodeAt lv hd).next.getD 0) n

/-- The full forward iteration (`LinkedVec::iter` collected), i.e. the logical
order of the container. -/
def iterList [Inhabited T] (lv : LinkedVec T) : List T :=
  iterFrom lv (lv.head.getD 0) lv.data.length

/-- Mirrors the loop of `IterP::next`: same walk, yielding physical indices. -/
def iterPFrom [Inhabited T] (lv : LinkedVec T) : Nat → Nat → List Nat
  | _, 0 => []
  | hd, n + 1 => hd :: iterPFrom lv ((nodeAt lv hd).next.getD 0) n

/-- The full physical-index iteration (`IterP` collected). -/
def iterPList [Inhabited T] (lv : LinkedVec T) : List Nat :=
  iterPFrom lv (lv.head.getD 0) lv.data.length

/-- Mirrors `impl Debug for LinkedVec`: the entries of the debug map, keys are
physical indices enumerated in logical order, values the payloads. -/
def debugPairs [Inhabited T] (lv : LinkedVec T) : List (Nat × T) :=
  (iterPList lv).map (fun i => (i, (nodeAt lv i).payload))

/-! ## Basic update lemmas for the link-setting primitives -/

section Basic

variable [Inhabited T]

@[simp] theorem setNext_length (lv : LinkedVec T) (t v : Option Nat) :
    (setNext lv t v).data.length = lv.data.length := by
  cases t <;> simp [setNext]

@[simp] theorem setPrev_length (lv : LinkedVec T) (t v : Option Nat) :
    (setPrev lv t v).data.length = lv.data.length := by
  cases t <;> simp [setPrev]

@[simp] theorem setNext_tail (lv : LinkedVec T) (t v : Option Nat) :
    (setNext lv t v).tail = lv.tail := by
  cases t <;> simp [setNext]

@[simp] theorem setPrev_head (lv : LinkedVec T) (t v : Option Nat) :
    (setPrev lv t v).head = lv.head := by
  cases t <;> simp [setPrev]

theorem setNext_head_some (lv : LinkedVec T) (i : Nat) (v : Option Nat) :
    (setNext lv (some i) v).head = lv.head := rfl

theorem setNext_head_none (lv : LinkedVec T) (v : Option Nat) :
    (setNext lv none v).head = v := rfl

theorem setPrev_tail_some (lv : LinkedVec T) (i : Nat) (v : Option Nat) :
    (setPrev lv (some i) v).tail = lv.tail := rfl

theorem setPrev_tail_none (lv : LinkedVec T) (v : Option Nat) :
    (setPrev lv none v).tail = v := rfl

theorem nodeAt_setNext_ne (lv : LinkedVec T) (t v : Option Nat) (j : Nat)
    (h : t ≠ some j) : nodeAt (setNext lv t v) j = nodeAt lv j := by
  cases t with
  | none => rfl
  | some i =>
    have hij : i ≠ j := fun he => h (by rw [he])
    simp [setNext, nodeAt, List.getElem?_set, hij]

theorem nodeAt_setPrev_ne (lv : LinkedVec T) (t v : Option Nat) (j : Nat)
    (h : t ≠ some j) : nodeAt (setPrev lv t v) j = nodeAt lv j := by
  cases t with
  | none => rfl
  | some i =>
    have hij : i ≠ j := fun he => h (by rw [he])
    simp [setPrev, nodeAt, List.getElem?_set, hij]

theorem nodeAt_setNext_eq (lv : LinkedVec T) (i : Nat) (v : Option Nat)
    (h : i < lv.data.length) :
    nodeAt (setNext lv (some i) v) i = { nodeAt lv i with next := v } := by
  simp [setNext, nodeAt, List.getElem?_set, h, List.getElem?_eq_getElem h]

theorem nodeAt_setPrev_eq (lv : LinkedVec T) (i : Nat) (v : Option Nat)
    (h : i < lv.data.length) :
    nodeAt (setPrev lv (some i) v) i = { nodeAt lv i with prev := v } := by
  simp [setPrev, nodeAt, List.getElem?_set, h, List.getElem?_eq_getElem h]

theorem payload_setNext (lv : LinkedVec T) (t v : Option Nat) (j : Nat) :
    (nodeAt (setNext lv t v) j).payload = (nodeAt lv j).payload := by
  cases t with
  | none => rfl
  | some i =>
    by_cases hij : i = j
    · subst hij
      by_cases h : i < lv.data.length
      · rw [nodeAt_setNext_eq lv i v h]
      · simp [setNext, nodeAt, List.getElem?_set, h,
          List.getElem?_eq_none (Nat.le_of_not_lt h)]
    · rw [nodeAt_setNext_ne lv (some i) v j (by simpa using hij)]

theorem payload_setPrev (lv : LinkedVec T) (t v : Option Nat) (j : Nat) :
    (nodeAt (setPrev lv t v) j).payload = (nodeAt lv j).payload := by
  cases t with
  | none => rfl
  | some i =>
    by_cases hij : i = j
    · subst hij
      by_cases h : i < lv.data.length
      · rw [nodeAt_setPrev_eq lv i v h]
      · simp [setPrev, nodeAt, List.getElem?_set, h,
          List.getElem?_eq_none (Nat.le_of_not_lt h)]
    · rw [nodeAt_setPrev_ne lv (some i) v j (by simpa using hij)]

theorem prev_setNext (lv : LinkedVec T) (t v : Option Nat) (j : Nat) :
    (nodeAt (setNext lv t v) j).prev = (nodeAt lv j).prev := by
  cases t with
  | none => rfl
  | some i =>
    by_cases hij : i = j
    · subst hij
      by_cases h : i < lv.data.length
      · rw [nodeAt_setNext_eq lv i v h]
      · simp [setNext, nodeAt, List.getElem?_set, h,
          List.getElem?_eq_none (Nat.le_of_not_lt h)]
    · rw [nodeAt_setNext_ne lv (some i) v j (by simpa using hij)]

theorem next_setPrev (lv : LinkedVec T) (t v : Option Nat) (j : Nat) :
    (nodeAt (setPrev lv t v) j).next = (nodeAt lv j).next := by
  cases t with
  | none => rfl
  | some i =>
    by_cases hij : i = j
    · subst hij
      by_cases h : i < lv.data.length
      · rw [nodeAt_setPrev_eq lv i v h]
      · simp [setPrev, nodeAt, List.getElem?_set, h,
          List.getElem?_eq_none (Nat.le_of_not_lt h)]
    · rw [nodeAt_setPrev_ne lv (some i) v j (by simpa using hij)]

end Basic

/-! ## The chain representation invariant -/

section Chain

variable [Inhabited T]

/-- The logical chain of a container: `ps` lists the physical slots in logical
order (head first).  This is the conjunction of the spec's structural
invariants: every stored index is in bounds, each slot occurs exactly once,
head/tail point at the ends, and the next/prev links thread `ps` in order. -/
structure ChainRep (lv : LinkedVec T) (ps : List Nat) : Prop where
  bound : ∀ p ∈ ps, p < lv.data.length
  nodup : ps.Nodup
  lengthEq : ps.length = lv.data.length
  headOK : lv.head = ps[0]?
  tailOK : lv.tail = ps[ps.length - 1]?
  nextOK : ∀ (k : Nat) (x : Nat), ps[k]? = some x → (nodeAt lv x).next = ps[k + 1]?
  prevOK : ∀ (k : Nat) (x : Nat), ps[k]? = some x →
    (nodeAt lv x).prev = (if k = 0 then none else ps[k - 1]?)

/-- The payload sequence read off along a slot list. -/
def payloads (lv : LinkedVec T) (ps : List Nat) : List T :=
  ps.map (fun p => (nodeAt lv p).payload)

/-- The empty container represents the empty chain. -/
theorem chainRep_new : ChainRep (LinkedVec.new : LinkedVec T) [] := by
  refine ⟨?_, ?_, ?_, ?_, ?_, ?_, ?_⟩ <;> simp [LinkedVec.new]

/-- Pigeonhole: the chain covers every physical slot. -/
theorem ChainRep.cover {lv : LinkedVec T} {ps : List Nat} (hC : ChainRep lv ps)
    (i : Nat) (hi : i < lv.data.length) : i ∈ ps := by
  have hsub : ps.toFinset ⊆ Finset.range lv.data.length := by
    intro x hx
    rw [List.mem_toFinset] at hx
    exact Finset.mem_range.mpr (hC.bound x hx)
  have hcard : (Finset.range lv.data.length).card ≤ ps.toFinset.card := by
    rw [Finset.card_range, List.toFinset_card_of_nodup hC.nodup, hC.lengthEq]
  have := Finset.eq_of_subset_of_card_le hsub hcard
  have : i ∈ ps.toFinset := by rw [this]; exact Finset.mem_range.mpr hi
  exact List.mem_toFinset.mp this

/-- Every in-bounds slot has a logical position. -/
theorem ChainRep.pos_of_lt {lv : LinkedVec T} {ps : List Nat} (hC : ChainRep lv ps)
    (i : Nat) (hi : i < lv.data.length) : ∃ k : Nat, ps[k]? = some i :=
  List.getElem?_of_mem (hC.cover i hi)

end Chain

/-! ## List index helpers -/

theorem getSome_lt {α : Type} {ps : List α} {k : Nat} {x : α} (h : ps[k]? = some x) :
    k < ps.length := by
  by_contra hk
  rw [List.getElem?_eq_none (Nat.le_of_not_lt hk)] at h
  exact Option.noConfusion h

theorem getSome_mem {α : Type} {ps : List α} {k : Nat} {x : α} (h : ps[k]? = some x) :
    x ∈ ps :=
  List.getElem?_mem h

theorem getSome_inj {α : Type} {ps : List α} (hn : ps.Nodup) {k j : Nat} {x : α}
    (hk : ps[k]? = some x) (hj : ps[j]? = some x) : k = j :=
  List.getElem?_inj (getSome_lt hk) hn (hk.trans hj.symm)

theorem getSome_ne {α : Type} {ps : List α} (hn : ps.Nodup) {k j : Nat} {x y : α}
    (hk : ps[k]? = some x) (hj : ps[j]? = some y) (hkj : k ≠ j) : x ≠ y := by
  intro he
  exact hkj (getSome_inj hn hk (he ▸ hj))

/-! ## Iteration reads off the chain -/

section Iter

variable [Inhabited T]

theorem iterPFrom_chain {lv : LinkedVec T} {ps : List Nat} (hC : ChainRep lv ps) :
    ∀ (n k : Nat) (x : Nat), n = ps.length - k → ps[k]? = some x →
      iterPFrom lv x n = ps.drop k := by
  intro n
  induction n with
  | zero =>
    intro k x hn hk
    have := getSome_lt hk
    omega
  | succ n ih =>
    intro k x hn hk
    have hklt := getSome_lt hk
    have hdrop : ps.drop k = x :: ps.drop (k + 1) := by
      rw [List.drop_eq_getElem_cons hklt]
      rw [List.getElem?_eq_getElem hklt] at hk
      simp at hk
      rw [hk]
    rw [iterPFrom, hdrop]
    have hnext := hC.nextOK k x hk
    by_cases hk1 : k + 1 < ps.length
    · obtain ⟨y, hy⟩ : ∃ y : Nat, ps[k + 1]? = some y := by
        rw [List.getElem?_eq_getElem hk1]; exact ⟨_, rfl⟩
      rw [hnext, hy]
      simp only [Option.getD_some]
      rw [ih (k + 1) y (by omega) hy]
    · have : k + 1 = ps.length := by omega
      have hnone : ps[k + 1]? = none := List.getElem?_eq_none (by omega)
      have hn0 : n = 0 := by omega
      rw [hnext, hnone, hn0]
      simp [iterPFrom, List.drop_eq_nil_of_le (le_of_eq this.symm)]

/-- The physical-index iterator yields exactly the chain. -/
theorem iterPList_chain {lv : LinkedVec T} {ps : List Nat} (hC : ChainRep lv ps) :
    iterPList lv = ps := by
  unfold iterPList
  rcases hlen : ps.length with _ | len
  · have hps : ps = [] := List.length_eq_zero.mp hlen
    have : lv.data.length = 0 := by rw [← hC.lengthEq, hlen]
    rw [this, hps]
    rfl
  · have h0 : 0 < ps.length := by omega
    obtain ⟨x, hx⟩ : ∃ x : Nat, ps[0]? = some x := by
      rw [List.getElem?_eq_getElem h0]; exact ⟨_, rfl⟩
    have hhd : lv.head.getD 0 = x := by rw [hC.headOK, hx]; rfl
    rw [hhd, ← hC.lengthEq]
    have := iterPFrom_chain hC ps.length 0 x (by omega) hx
    simpa using this

theorem iterFrom_eq_map {lv : LinkedVec T} :
    ∀ (n hd : Nat), iterFrom lv hd n =
      (iterPFrom lv hd n).map (fun i => (nodeAt lv i).payload) := by
  intro n
  induction n with
  | zero => intro hd; rfl
  | succ n ih => intro hd; rw [iterFrom, iterPFrom, List.map_cons, ih]

/-- Forward iteration yields the payloads along the chain: the logical
sequence. -/
theorem iterList_chain {lv : LinkedVec T} {ps : List Nat} (hC : ChainRep lv ps) :
    iterList lv = payloads lv ps := by
  unfold iterList payloads
  rw [iterFrom_eq_map]
  have : iterPFrom lv (lv.head.getD 0) lv.data.length = iterPList lv := rfl
  rw [this, iterPList_chain hC]

end Iter

/-! ## Push operations preserve the chain -/

section Push

variable [Inhabited T]

theorem pushBack_chain {lv : LinkedVec T} {ps : List Nat} (hC : ChainRep lv ps)
    (m : Nat) (v : T) (hm : lv.data.length ≤ m) :
    ∃ lv2, pushBack m lv v = some lv2 ∧
      ChainRep lv2 (ps ++ [lv.data.length]) ∧
      payloads lv2 (ps ++ [lv.data.length]) = payloads lv ps ++ [v] := by
  classical
  set L := lv.data.length with hLdef
  set lv1 : LinkedVec T := { lv with data := lv.data ++ [VecNode.new v] } with hlv1def
  have hpush : pushP m lv v = some (lv1, L) := by
    simp [pushP, Nat.not_lt.mpr hm, hlv1def]
  have h1len : lv1.data.length = L + 1 := by simp [hlv1def]
  have h1node : ∀ j : Nat, j < L → nodeAt lv1 j = nodeAt lv j := by
    intro j hj
    simp [hlv1def, nodeAt, List.getElem?_append, hj]
  have h1n : nodeAt lv1 L = VecNode.new v := by
    simp [hlv1def, nodeAt, List.getElem?_concat_length]
  have h1head : lv1.head = lv.head := rfl
  have h1tail : lv1.tail = lv.tail := rfl
  have hnotin : L ∉ ps := fun h => lt_irrefl L (hC.bound L h)
  have hlen : ps.length = L := hC.lengthEq
  by_cases hps : ps = []
  -- empty container: everything is concrete except the payload
  · subst hps
    have hL0 : L = 0 := by rw [← hlen]; rfl
    have hdata : lv.data = [] := List.length_eq_zero.mp hL0
    have hhead : lv.head = none := by rw [hC.headOK]; rfl
    have htail : lv.tail = none := by rw [hC.tailOK]; rfl
    have hlv1 : lv1 = ⟨[VecNode.new v], none, none⟩ := by
      rw [hlv1def, hdata, hhead, htail]
      simp
    have hres : pushBack m lv v =
        some (⟨[⟨v, none, none⟩], some 0, some 0⟩ : LinkedVec T) := by
      rw [pushBack, hpush, Option.map_some']
      rw [hL0, hlv1]
      rfl
    refine ⟨_, hres, ?_, ?_⟩
    · rw [hL0]
      refine ⟨?_, ?_, ?_, ?_, ?_, ?_, ?_⟩
      · intro p hp; simp at hp; simp [hp]
      · simp
      · simp
      · rfl
      · rfl
      · intro k x hx
        have hk := getSome_lt hx
        simp at hk
        subst hk
        simp at hx
        subst hx
        rfl
      · intro k x hx
        have hk := getSome_lt hx
        simp at hk
        subst hk
        simp at hx
        subst hx
        rfl
    · rw [hL0]; rfl
  -- non-empty container
  · have hlpos : 0 < ps.length := List.length_pos.mpr hps
    obtain ⟨t, ht⟩ : ∃ t : Nat, ps[ps.length - 1]? = some t :=
      ⟨_, List.getElem?_eq_getElem (by omega)⟩
    have htail : lv.tail = some t := by rw [hC.tailOK, ht]
    have htL : t < L := hC.bound t (getSome_mem ht)
    have htnext : (nodeAt lv t).next = none := by
      have := hC.nextOK (ps.length - 1) t ht
      rw [this]
      exact List.getElem?_eq_none (by omega)
    have hother : getNext lv1 lv1.tail = none := by
      rw [h1tail, htail]
      show (nodeAt lv1 t).next = none
      rw [h1node t htL, htnext]
    set lvA : LinkedVec T := pair lv1 (some t) (some L) with hlvAdef
    set lvF : LinkedVec T := pair lvA (some L) none with hlvFdef
    have hres : pushBack m lv v = some lvF := by
      rw [pushBack, hpush, Option.map_some']
      have : insertNodeAfter lv1 L lv1.tail =
          pair (pair lv1 lv1.tail (some L)) (some L) (getNext lv1 lv1.tail) := rfl
      rw [this, hother, h1tail, htail, ← hlvAdef, ← hlvFdef]
    have hAlen : lvA.data.length = L + 1 := by
      rw [hlvAdef, pair, setPrev_length, setNext_length, h1len]
    have hFlen : lvF.data.length = L + 1 := by
      rw [hlvFdef, pair, setPrev_length, setNext_length, hAlen]
    have htneL : t ≠ L := Nat.ne_of_lt htL
    have hFhead : lvF.head = lv.head := by
      rw [hlvFdef, pair, setPrev_head, setNext_head_some, hlvAdef, pair,
        setPrev_head, setNext_head_some, h1head]
    have hFtail : lvF.tail = some L := by
      rw [hlvFdef, pair, setPrev_tail_none]
    have hAnode_t : nodeAt lvA t = { nodeAt lv t with next := some L } := by
      rw [hlvAdef, pair]
      rw [nodeAt_setPrev_ne _ _ _ _ (by simpa using Ne.symm htneL)]
      rw [nodeAt_setNext_eq _ _ _ (by omega), h1node t htL]
    have hAnode_L : nodeAt lvA L = ⟨v, none, some t⟩ := by
      rw [hlvAdef, pair]
      rw [nodeAt_setPrev_eq _ _ _ (by rw [setNext_length]; omega)]
      rw [nodeAt_setNext_ne _ _ _ _ (by simpa using htneL), h1n]
      rfl
    have hAnode_other : ∀ j : Nat, j ≠ t → j ≠ L → nodeAt lvA j = nodeAt lv1 j := by
      intro j hjt hjL
      rw [hlvAdef, pair]
      rw [nodeAt_setPrev_ne _ _ _ _ (by simpa using Ne.symm hjL)]
      rw [nodeAt_setNext_ne _ _ _ _ (by simpa using Ne.symm hjt)]
    have hFnode_L : nodeAt lvF L = ⟨v, none, some t⟩ := by
      rw [hlvFdef, pair]
      rw [nodeAt_setPrev_ne _ _ _ _ (by simp)]
      rw [nodeAt_setNext_eq _ _ _ (by omega), hAnode_L]
    have hFnode_ne : ∀ j : Nat, j ≠ L → nodeAt lvF j = nodeAt lvA j := by
      intro j hjL
      rw [hlvFdef, pair]
      rw [nodeAt_setPrev_ne _ _ _ _ (by simp)]
      rw [nodeAt_setNext_ne _ _ _ _ (by simpa using Ne.symm hjL)]
    have hFnode_t : nodeAt lvF t = { nodeAt lv t with next := some L } := by
      rw [hFnode_ne t htneL, hAnode_t]
    have hFnode_other : ∀ j : Nat, j < L → j ≠ t → nodeAt lvF j = nodeAt lv j := by
      intro j hj hjt
      rw [hFnode_ne j (by omega), hAnode_other j hjt (by omega), h1node j hj]
    have hprev_pres : ∀ j : Nat, j < L → (nodeAt lvF j).prev = (nodeAt lv j).prev := by
      intro j hj
      by_cases hjt : j = t
      · subst hjt; rw [hFnode_t]
      · rw [hFnode_other j hj hjt]
    have hpay_pres : ∀ j : Nat, j < L → (nodeAt lvF j).payload = (nodeAt lv j).payload := by
      intro j hj
      by_cases hjt : j = t
      · subst hjt; rw [hFnode_t]
      · rw [hFnode_other j hj hjt]
    refine ⟨lvF, hres, ?_, ?_⟩
    · refine ⟨?_, ?_, ?_, ?_, ?_, ?_, ?_⟩
      · intro p hp
        rw [hFlen]
        rcases List.mem_append.mp hp with h | h
        · exact Nat.lt_succ_of_lt (hC.bound p h)
        · simp at h; omega
      · simp [List.nodup_append, hC.nodup, hnotin]
      · simp [hFlen, hlen]
      · rw [hFhead, hC.headOK, List.getElem?_append, if_pos hlpos]
      · rw [hFtail]
        have h1 : (ps ++ [L]).length - 1 = ps.length := by simp
        rw [h1, List.getElem?_concat_length]
      · intro k x hx
        rw [List.getElem?_append] at hx
        by_cases hk : k < ps.length
        · rw [if_pos hk] at hx
          have hxL : x < L := hC.bound x (getSome_mem hx)
          by_cases hklast : k = ps.length - 1
          · have hxt : x = t := by
              subst hklast
              exact Option.some.inj (hx.symm.trans ht)
            subst hxt
            rw [hFnode_t]
            show some L = (ps ++ [L])[k + 1]?
            rw [show k + 1 = ps.length by omega, List.getElem?_concat_length]
          · have hxt : x ≠ t := getSome_ne hC.nodup hx ht hklast
            rw [hFnode_other x hxL hxt, hC.nextOK k x hx]
            rw [List.getElem?_append, if_pos (by omega : k + 1 < ps.length)]
        · rw [if_neg hk] at hx
          have hklt := getSome_lt hx
          simp at hklt
          have hxL : x = L := by
            rw [show k - ps.length = 0 by omega] at hx
            simpa using hx.symm
          subst hxL
          rw [hFnode_L]
          show none = (ps ++ [L])[k + 1]?
          rw [List.getElem?_eq_none (by simp; omega)]
      · intro k x hx
        rw [List.getElem?_append] at hx
        by_cases hk : k < ps.length
        · rw [if_pos hk] at hx
          have hxL : x < L := hC.bound x (getSome_mem hx)
          rw [hprev_pres x hxL, hC.prevOK k x hx]
          by_cases hk0 : k = 0
          · simp [hk0]
          · rw [if_neg hk0, if_neg hk0]
            rw [List.getElem?_append, if_pos (by omega : k - 1 < ps.length)]
        · rw [if_neg hk] at hx
          have hklt := getSome_lt hx
          simp at hklt
          have hxL : x = L := by
            rw [show k - ps.length = 0 by omega] at hx
            simpa using hx.symm
          subst hxL
          rw [hFnode_L]
          rw [if_neg (by omega : ¬ k = 0)]
          show some t = (ps ++ [L])[k - 1]?
          rw [List.getElem?_append, if_pos (by omega : k - 1 < ps.length)]
          rw [show k - 1 = ps.length - 1 by omega, ht]
    · unfold payloads
      rw [List.map_append]
      congr 1
      · exact List.map_congr_left (fun a ha => hpay_pres a (hC.bound a ha))
      · simp [hFnode_L]

theorem pushFront_chain {lv : LinkedVec T} {ps : List Nat} (hC : ChainRep lv ps)
    (m : Nat) (v : T) (hm : lv.data.length ≤ m) :
    ∃ lv2, pushFront m lv v = some lv2 ∧
      ChainRep lv2 (lv.data.length :: ps) ∧
      payloads lv2 (lv.data.length :: ps) = v :: payloads lv ps := by
  classical
  set L := lv.data.length with hLdef
  set lv1 : LinkedVec T := { lv with data := lv.data ++ [VecNode.new v] } with hlv1def
  have hpush : pushP m lv v = some (lv1, L) := by
    simp [pushP, Nat.not_lt.mpr hm, hlv1def]
  have h1len : lv1.data.length = L + 1 := by simp [hlv1def]
  have h1node : ∀ j : Nat, j < L → nodeAt lv1 j = nodeAt lv j := by
    intro j hj
    simp [hlv1def, nodeAt, List.getElem?_append, hj]
  have h1n : nodeAt lv1 L = VecNode.new v := by
    simp [hlv1def, nodeAt, List.getElem?_concat_length]
  have h1head : lv1.head = lv.head := rfl
  have h1tail : lv1.tail = lv.tail := rfl
  have hnotin : L ∉ ps := fun h => lt_irrefl L (hC.bound L h)
  have hlen : ps.length = L := hC.lengthEq
  by_cases hps : ps = []
  · subst hps
    have hL0 : L = 0 := by rw [← hlen]; rfl
    have hdata : lv.data = [] := List.length_eq_zero.mp hL0
    have hhead : lv.head = none := by rw [hC.headOK]; rfl
    have htail : lv.tail = none := by rw [hC.tailOK]; rfl
    have hlv1 : lv1 = ⟨[VecNode.new v], none, none⟩ := by
      rw [hlv1def, hdata, hhead, htail]
      simp
    have hres : pushFront m lv v =
        some (⟨[⟨v, none, none⟩], some 0, some 0⟩ : LinkedVec T) := by
      rw [pushFront, hpush, Option.map_some']
      rw [hL0, hlv1]
      rfl
    refine ⟨_, hres, ?_, ?_⟩
    · rw [hL0]
      refine ⟨?_, ?_, ?_, ?_, ?_, ?_, ?_⟩
      · intro p hp; simp at hp; simp [hp]
      · simp
      · simp
      · rfl
      · rfl
      · intro k x hx
        have hk := getSome_lt hx
        simp at hk
        subst hk
        simp at hx
        subst hx
        rfl
      · intro k x hx
        have hk := getSome_lt hx
        simp at hk
        subst hk
        simp at hx
        subst hx
        rfl
    · rw [hL0]; rfl
  · have hlpos : 0 < ps.length := List.length_pos.mpr hps
    obtain ⟨h, hh⟩ : ∃ h : Nat, ps[0]? = some h :=
      ⟨_, List.getElem?_eq_getElem (by omega)⟩
    have hhead : lv.head = some h := by rw [hC.headOK, hh]
    have hhL : h < L := hC.bound h (getSome_mem hh)
    have hprev0 : (nodeAt lv h).prev = none := by
      have := hC.prevOK 0 h hh
      simpa using this
    have hother : getPrev lv1 lv1.head = none := by
      rw [h1head, hhead]
      show (nodeAt lv1 h).prev = none
      rw [h1node h hhL, hprev0]
    set lvA : LinkedVec T := pair lv1 none (some L) with hlvAdef
    set lvF : LinkedVec T := pair lvA (some L) (some h) with hlvFdef
    have hres : pushFront m lv v = some lvF := by
      rw [pushFront, hpush, Option.map_some']
      have : insertNodeBefore lv1 L lv1.head =
          pair (pair lv1 (getPrev lv1 lv1.head) (some L)) (some L) lv1.head := rfl
      rw [this, hother, h1head, hhead, ← hlvAdef, ← hlvFdef]
    have hAlen : lvA.data.length = L + 1 := by
      rw [hlvAdef, pair, setPrev_length, setNext_length, h1len]
    have hFlen : lvF.data.length = L + 1 := by
      rw [hlvFdef, pair, setPrev_length, setNext_length, hAlen]
    have hhneL : h ≠ L := Nat.ne_of_lt hhL
    have hSN1 : ∀ j : Nat, nodeAt (setNext lv1 none (some L)) j = nodeAt lv1 j :=
      fun j => nodeAt_setNext_ne lv1 none (some L) j (by simp)
    have hAnode_L : nodeAt lvA L = ⟨v, none, none⟩ := by
      rw [hlvAdef, pair]
      rw [nodeAt_setPrev_eq _ _ _ (by rw [setNext_length]; omega)]
      rw [hSN1, h1n]
      rfl
    have hAnode_other : ∀ j : Nat, j ≠ L → nodeAt lvA j = nodeAt lv1 j := by
      intro j hjL
      rw [hlvAdef, pair]
      rw [nodeAt_setPrev_ne _ _ _ _ (by simpa using Ne.symm hjL), hSN1]
    have hAhead : lvA.head = some L := by
      rw [hlvAdef, pair, setPrev_head, setNext_head_none]
    have hAtail : lvA.tail = lv.tail := by
      rw [hlvAdef, pair, setPrev_tail_some, setNext_tail, h1tail]
    have hFnode_L : nodeAt lvF L = ⟨v, some h, none⟩ := by
      rw [hlvFdef, pair]
      rw [nodeAt_setPrev_ne _ _ _ _ (by simpa using hhneL)]
      rw [nodeAt_setNext_eq _ _ _ (by omega), hAnode_L]
    have hFnode_h : nodeAt lvF h = { nodeAt lv h with prev := some L } := by
      rw [hlvFdef, pair]
      rw [nodeAt_setPrev_eq _ _ _ (by rw [setNext_length]; omega)]
      rw [nodeAt_setNext_ne _ _ _ _ (by simpa using Ne.symm hhneL)]
      rw [hAnode_other h hhneL, h1node h hhL]
    have hFnode_other : ∀ j : Nat, j < L → j ≠ h → nodeAt lvF j = nodeAt lv j := by
      intro j hj hjh
      rw [hlvFdef, pair]
      rw [nodeAt_setPrev_ne _ _ _ _ (by simpa using Ne.symm hjh)]
      rw [nodeAt_setNext_ne _ _ _ _ (by simpa using (by omega : L ≠ j))]
      rw [hAnode_other j (by omega), h1node j hj]
    have hFhead : lvF.head = some L := by
      rw [hlvFdef, pair, setPrev_head, setNext_head_some, hAhead]
    have hFtail : lvF.tail = lv.tail := by
      rw [hlvFdef, pair, setPrev_tail_some, setNext_tail, hAtail]
    have hnext_pres : ∀ j : Nat, j < L → (nodeAt lvF j).next = (nodeAt lv j).next := by
      intro j hj
      by_cases hjh : j = h
      · subst hjh; rw [hFnode_h]
      · rw [hFnode_other j hj hjh]
    have hpay_pres : ∀ j : Nat, j < L → (nodeAt lvF j).payload = (nodeAt lv j).payload := by
      intro j hj
      by_cases hjh : j = h
      · subst hjh; rw [hFnode_h]
      · rw [hFnode_other j hj hjh]
    refine ⟨lvF, hres, ?_, ?_⟩
    · refine ⟨?_, ?_, ?_, ?_, ?_, ?_, ?_⟩
      · intro p hp
        rw [hFlen]
        rcases List.mem_cons.mp hp with hpe | hpm
        · omega
        · exact Nat.lt_succ_of_lt (hC.bound p hpm)
      · exact List.nodup_cons.mpr ⟨hnotin, hC.nodup⟩
      · simp [hFlen, hlen]
      · rw [hFhead, List.getElem?_cons_zero]
      · rw [hFtail, hC.tailOK]
        have hlc : (L :: ps).length - 1 = (ps.length - 1) + 1 := by
          simp; omega
        rw [hlc, List.getElem?_cons_succ]
      · intro k x hx
        cases k with
        | zero =>
          simp at hx
          subst hx
          rw [hFnode_L]
          show some h = (L :: ps)[1]?
          rw [List.getElem?_cons_succ, hh]
        | succ n =>
          rw [List.getElem?_cons_succ] at hx
          have hxL : x < L := hC.bound x (getSome_mem hx)
          rw [hnext_pres x hxL, hC.nextOK n x hx]
          rw [show n + 1 + 1 = (n + 1) + 1 from rfl, List.getElem?_cons_succ]
      · intro k x hx
        cases k with
        | zero =>
          simp at hx
          subst hx
          rw [hFnode_L]
          rfl
        | succ n =>
          rw [List.getElem?_cons_succ] at hx
          have hxL : x < L := hC.bound x (getSome_mem hx)
          cases n with
          | zero =>
            have hxh : x = h := Option.some.inj (hx.symm.trans hh)
            subst hxh
            rw [hFnode_h]
            simp
          | succ n' =>
            have hxh : x ≠ h := getSome_ne hC.nodup hx hh (by omega)
            rw [hFnode_other x hxL hxh, hC.prevOK (n' + 1) x hx]
            rw [if_neg (by omega : ¬ n' + 1 = 0), if_neg (by omega : ¬ n' + 1 + 1 = 0)]
            rw [show n' + 1 + 1 - 1 = (n' + 1 - 1) + 1 by omega, List.getElem?_cons_succ]
    · unfold payloads
      rw [List.map_cons]
      congr 1
      · rw [hFnode_L]
      · exact List.map_congr_left (fun a ha => hpay_pres a (hC.bound a ha))

end Push

/-! ## Removal: unlink, then densify -/

section Remove

variable [Inhabited T]

/-- A partial chain: the same link structure as `ChainRep` but without the
requirement that `ps` covers every physical slot.  This holds in the
intermediate state after a slot has been unlinked but before the array has
been densified. -/
structure PChain (lv : LinkedVec T) (ps : List Nat) : Prop where
  bound : ∀ p ∈ ps, p < lv.data.length
  nodup : ps.Nodup
  headOK : lv.head = ps[0]?
  tailOK : lv.tail = ps[ps.length - 1]?
  nextOK : ∀ (k : Nat) (x : Nat), ps[k]? = some x → (nodeAt lv x).next = ps[k + 1]?
  prevOK : ∀ (k : Nat) (x : Nat), ps[k]? = some x →
    (nodeAt lv x).prev = (if k = 0 then none else ps[k - 1]?)

theorem ChainRep.toPChain {lv : LinkedVec T} {ps : List Nat} (hC : ChainRep lv ps) :
    PChain lv ps :=
  ⟨hC.bound, hC.nodup, hC.headOK, hC.tailOK, hC.nextOK, hC.prevOK⟩

theorem PChain.toChainRep {lv : LinkedVec T} {ps : List Nat} (hP : PChain lv ps)
    (hlen : ps.length = lv.data.length) : ChainRep lv ps :=
  ⟨hP.bound, hP.nodup, hlen, hP.headOK, hP.tailOK, hP.nextOK, hP.prevOK⟩

theorem mem_eraseIdx_of_pos_ne {ps : List Nat} {k2 k x : Nat}
    (hx : ps[k2]? = some x) (hne : k2 ≠ k) : x ∈ ps.eraseIdx k := by
  apply getSome_mem (k := if k2 < k then k2 else k2 - 1)
  rw [List.getElem?_eraseIdx]
  by_cases h : k2 < k
  · rw [if_pos h, if_pos h]
    exact hx
  · rw [if_neg h, if_neg (by omega : ¬ k2 - 1 < k)]
    rw [show k2 - 1 + 1 = k2 by omega]
    exact hx

theorem not_mem_eraseIdx_self {ps : List Nat} (hn : ps.Nodup) {k i : Nat}
    (hk : ps[k]? = some i) : i ∉ ps.eraseIdx k := by
  intro hmem
  obtain ⟨t, ht⟩ := List.getElem?_of_mem hmem
  rw [List.getElem?_eraseIdx] at ht
  by_cases h : t < k
  · rw [if_pos h] at ht
    exact absurd (getSome_inj hn ht hk) (by omega)
  · rw [if_neg h] at ht
    exact absurd (getSome_inj hn ht hk) (by omega)

/-- Unlinking a slot removes it from the chain and touches nothing else:
payloads and the array length are unchanged. -/
theorem removeNodeP_chain {lv : LinkedVec T} {ps : List Nat} (hC : ChainRep lv ps)
    (k i : Nat) (hk : ps[k]? = some i) :
    PChain (removeNodeP lv i) (ps.eraseIdx k) ∧
    (removeNodeP lv i).data.length = lv.data.length ∧
    (∀ j : Nat, (nodeAt (removeNodeP lv i) j).payload = (nodeAt lv j).payload) := by
  classical
  have hklen := getSome_lt hk
  have hiL : i < lv.data.length := hC.bound i (getSome_mem hk)
  have hlen : ps.length = lv.data.length := hC.lengthEq
  have hPv := hC.prevOK k i hk
  have hNx := hC.nextOK k i hk
  have hunfold : removeNodeP lv i =
      setPrev (setNext lv (nodeAt lv i).prev (nodeAt lv i).next)
        (nodeAt lv i).next (nodeAt lv i).prev := rfl
  have h1len : (removeNodeP lv i).data.length = lv.data.length := by
    rw [hunfold, setPrev_length, setNext_length]
  have hpay : ∀ j : Nat,
      (nodeAt (removeNodeP lv i) j).payload = (nodeAt lv j).payload := by
    intro j
    rw [hunfold, payload_setPrev, payload_setNext]
  have hnext_keep : ∀ j : Nat, (nodeAt lv i).prev ≠ some j →
      (nodeAt (removeNodeP lv i) j).next = (nodeAt lv j).next := by
    intro j hj
    rw [hunfold, next_setPrev, nodeAt_setNext_ne _ _ _ _ hj]
  have hprev_keep : ∀ j : Nat, (nodeAt lv i).next ≠ some j →
      (nodeAt (removeNodeP lv i) j).prev = (nodeAt lv j).prev := by
    intro j hj
    rw [hunfold, nodeAt_setPrev_ne _ _ _ _ hj, prev_setNext]
  have hnext_mod : ∀ j : Nat, (nodeAt lv i).prev = some j → j < lv.data.length →
      (nodeAt (removeNodeP lv i) j).next = (nodeAt lv i).next := by
    intro j hj hjL
    rw [hunfold, next_setPrev, hj, nodeAt_setNext_eq _ _ _ hjL]
  have hprev_mod : ∀ j : Nat, (nodeAt lv i).next = some j → j < lv.data.length →
      (nodeAt (removeNodeP lv i) j).prev = (nodeAt lv i).prev := by
    intro j hj hjL
    rw [hunfold, hj, nodeAt_setPrev_eq _ _ _ (by rw [setNext_length]; exact hjL)]
  have hqs_get : ∀ t : Nat,
      (ps.eraseIdx k)[t]? = if t < k then ps[t]? else ps[t + 1]? :=
    fun t => List.getElem?_eraseIdx ps k t
  have hqslen : (ps.eraseIdx k).length = ps.length - 1 := by
    rw [List.length_eraseIdx, if_pos hklen]
  refine ⟨⟨?_, ?_, ?_, ?_, ?_, ?_⟩, h1len, hpay⟩
  · intro p hp
    rw [h1len]
    exact hC.bound p (List.Sublist.mem hp (List.eraseIdx_sublist ps k))
  · exact List.Sublist.nodup (List.eraseIdx_sublist ps k) hC.nodup
  · show (removeNodeP lv i).head = (ps.eraseIdx k)[0]?
    rw [hunfold, setPrev_head, hqs_get 0]
    by_cases hk0 : k = 0
    · subst hk0
      rw [hPv] at *
      rw [if_pos rfl, setNext_head_none, hNx]
      simp
    · rw [if_pos (by omega : 0 < k)]
      obtain ⟨pk, hpk⟩ : ∃ pk : Nat, ps[k - 1]? = some pk :=
        ⟨_, List.getElem?_eq_getElem (by omega)⟩
      rw [hPv, if_neg hk0, hpk, setNext_head_some, hC.headOK]
  · show (removeNodeP lv i).tail = (ps.eraseIdx k)[(ps.eraseIdx k).length - 1]?
    rw [hunfold]
    by_cases hkl : k = ps.length - 1
    · have hNxn : (nodeAt lv i).next = none := by
        rw [hNx, List.getElem?_eq_none (by omega)]
      rw [hNxn, setPrev_tail_none]
      by_cases hk0 : k = 0
      · rw [hPv, if_pos hk0]
        rw [List.getElem?_eq_none (by omega)]
      · rw [hPv, if_neg hk0, hqs_get, hqslen]
        rw [if_pos (by omega : ps.length - 1 - 1 < k),
          show ps.length - 1 - 1 = k - 1 by omega]
    · obtain ⟨nk, hnk⟩ : ∃ nk : Nat, ps[k + 1]? = some nk :=
        ⟨_, List.getElem?_eq_getElem (by omega)⟩
      rw [hNx, hnk, setPrev_tail_some, setNext_tail, hC.tailOK, hqs_get, hqslen]
      rw [if_neg (by omega : ¬ ps.length - 1 - 1 < k),
        show ps.length - 1 - 1 + 1 = ps.length - 1 by omega]
  · intro t x hx
    rw [hqs_get] at hx
    by_cases h : t < k
    · rw [if_pos h] at hx
      have hxL : x < lv.data.length := hC.bound x (getSome_mem hx)
      by_cases htk : t + 1 = k
      · -- `x` is the predecessor of the removed slot: its next is rewired
        have hmod : (nodeAt lv i).prev = some x := by
          rw [hPv, if_neg (by omega : ¬ k = 0), ← htk]
          simp only [Nat.add_sub_cancel]
          exact hx
        rw [hnext_mod x hmod hxL, hNx, hqs_get]
        rw [if_neg (by omega : ¬ t + 1 < k), htk]
      · have hmod : (nodeAt lv i).prev ≠ some x := by
          rw [hPv]
          by_cases hk0 : k = 0
          · rw [if_pos hk0]; exact fun he => Option.noConfusion he
          · rw [if_neg hk0]
            intro he
            have := getSome_inj hC.nodup he hx
            omega
        rw [hnext_keep x hmod, hC.nextOK t x hx, hqs_get]
        rw [if_pos (by omega : t + 1 < k)]
    · rw [if_neg h] at hx
      have hxL : x < lv.data.length := hC.bound x (getSome_mem hx)
      by_cases htk : t = k
      · -- `x` is the successor of the removed slot: its next is untouched
        have hmod : (nodeAt lv i).prev ≠ some x := by
          rw [hPv]
          by_cases hk0 : k = 0
          · rw [if_pos hk0]; exact fun he => Option.noConfusion he
          · rw [if_neg hk0]
            intro he
            have := getSome_inj hC.nodup he hx
            omega
        rw [hnext_keep x hmod, hC.nextOK (t + 1) x hx, hqs_get]
        rw [if_neg (by omega : ¬ t + 1 < k)]
      · have hmod : (nodeAt lv i).prev ≠ some x := by
          rw [hPv]
          by_cases hk0 : k = 0
          · rw [if_pos hk0]; exact fun he => Option.noConfusion he
          · rw [if_neg hk0]
            intro he
            have := getSome_inj hC.nodup he hx
            omega
        rw [hnext_keep x hmod, hC.nextOK (t + 1) x hx, hqs_get]
        rw [if_neg (by omega : ¬ t + 1 < k)]
  · intro t x hx
    rw [hqs_get] at hx
    by_cases h : t < k
    · rw [if_pos h] at hx
      have hxL : x < lv.data.length := hC.bound x (getSome_mem hx)
      have hmod : (nodeAt lv i).next ≠ some x := by
        rw [hNx]
        intro he
        have := getSome_inj hC.nodup he hx
        omega
      rw [hprev_keep x hmod, hC.prevOK t x hx]
      by_cases ht0 : t = 0
      · rw [if_pos ht0, if_pos ht0]
      · rw [if_neg ht0, if_neg ht0, hqs_get, if_pos (by omega : t - 1 < k)]
    · rw [if_neg h] at hx
      have hxL : x < lv.data.length := hC.bound x (getSome_mem hx)
      by_cases htk : t = k
      · -- `x` is the successor of the removed slot: its prev is rewired
        have hmod : (nodeAt lv i).next = some x := by
          rw [hNx, ← htk]
          exact hx
        rw [hprev_mod x hmod hxL, hPv]
        subst htk
        by_cases ht0 : t = 0
        · rw [if_pos ht0, if_pos ht0]
        · rw [if_neg ht0, if_neg ht0, hqs_get, if_pos (by omega : t - 1 < t)]
      · have hmod : (nodeAt lv i).next ≠ some x := by
          rw [hNx]
          intro he
          have := getSome_inj hC.nodup he hx
          omega
        rw [hprev_keep x hmod, hC.prevOK (t + 1) x hx]
        rw [if_neg (by omega : ¬ t + 1 = 0), if_neg (by omega : ¬ t = 0)]
        rw [hqs_get, if_neg (by omega : ¬ t - 1 < k),
          show t - 1 + 1 = t by omega]
        simp only [Nat.add_sub_cancel]

/-- Densifying after an unlink: the physically last slot `w` is moved into the
freed position `i` and `move_node_p` repairs its neighbors, which renames `w`
to `i` throughout the chain without changing the logical payload sequence. -/
theorem relocate_chain {lv1 lv2 : LinkedVec T} {qs : List Nat} (hP : PChain lv1 qs)
    (i w : Nat) (hw : w = lv1.data.length - 1) (hiw : i < w)
    (hlv2 : lv2 = { lv1 with data := (lv1.data.set i (nodeAt lv1 w)).dropLast })
    (hinotin : i ∉ qs) (hqslen : qs.length = w) (hmem : w ∈ qs) :
    PChain (moveNodeP lv2 i) (qs.map (fun x => if x = w then i else x)) ∧
    (moveNodeP lv2 i).data.length = w ∧
    payloads (moveNodeP lv2 i) (qs.map (fun x => if x = w then i else x)) =
      payloads lv1 qs := by
  classical
  obtain ⟨jp, hjp⟩ := List.getElem?_of_mem hmem
  have hjplt := getSome_lt hjp
  have hL2 : 2 ≤ lv1.data.length := by omega
  have h2len : lv2.data.length = w := by
    rw [hlv2]
    simp [List.length_dropLast, List.length_set]
    omega
  have h2node : ∀ j : Nat, j < w →
      nodeAt lv2 j = if j = i then nodeAt lv1 w else nodeAt lv1 j := by
    intro j hj
    have hgoal : lv2.data[j]? = if j = i then lv1.data[w]? else lv1.data[j]? := by
      rw [hlv2]
      show ((lv1.data.set i (nodeAt lv1 w)).dropLast)[j]? = _
      rw [List.dropLast_eq_take, List.getElem?_take, List.length_set]
      rw [if_pos (by omega : j < lv1.data.length - 1)]
      rw [List.getElem?_set]
      by_cases hji : j = i
      · rw [if_pos (by omega : i = j), if_pos (by omega : i < lv1.data.length)]
        rw [if_pos hji]
        show some (nodeAt lv1 w) = lv1.data[w]?
        rw [show nodeAt lv1 w = (lv1.data[w]?).getD default from rfl]
        rw [List.getElem?_eq_getElem (by omega : w < lv1.data.length)]
        rfl
      · rw [if_neg (by omega : ¬ i = j), if_neg hji]
    show (lv2.data[j]?).getD default = _
    rw [hgoal]
    by_cases hji : j = i
    · rw [if_pos hji, if_pos hji]; rfl
    · rw [if_neg hji, if_neg hji]; rfl
  have h2head : lv2.head = lv1.head := by rw [hlv2]
  have h2tail : lv2.tail = lv1.tail := by rw [hlv2]
  have h2i : nodeAt lv2 i = nodeAt lv1 w := by rw [h2node i hiw, if_pos rfl]
  have hwnext : (nodeAt lv1 w).next = qs[jp + 1]? := hP.nextOK jp w hjp
  have hwprev : (nodeAt lv1 w).prev = (if jp = 0 then none else qs[jp - 1]?) :=
    hP.prevOK jp w hjp
  have hPne_i : (nodeAt lv1 w).prev ≠ some i := by
    rw [hwprev]
    by_cases hjp0 : jp = 0
    · rw [if_pos hjp0]; exact fun he => Option.noConfusion he
    · rw [if_neg hjp0]
      intro he
      exact hinotin (getSome_mem he)
  have hNne_i : (nodeAt lv1 w).next ≠ some i := by
    rw [hwnext]
    intro he
    exact hinotin (getSome_mem he)
  have hF_unfold : moveNodeP lv2 i =
      setPrev (setNext lv2 (nodeAt lv1 w).prev (some i)) (nodeAt lv1 w).next (some i) := by
    show setPrev (setNext lv2 (nodeAt lv2 i).prev (some i))
      ((nodeAt (setNext lv2 (nodeAt lv2 i).prev (some i)) i).next) (some i) = _
    rw [h2i, nodeAt_setNext_ne _ _ _ _ hPne_i, h2i]
  have hFlen : (moveNodeP lv2 i).data.length = w := by
    rw [hF_unfold, setPrev_length, setNext_length, h2len]
  have hFpay : ∀ j : Nat,
      (nodeAt (moveNodeP lv2 i) j).payload = (nodeAt lv2 j).payload := by
    intro j
    rw [hF_unfold, payload_setPrev, payload_setNext]
  have hFnext_keep : ∀ j : Nat, (nodeAt lv1 w).prev ≠ some j →
      (nodeAt (moveNodeP lv2 i) j).next = (nodeAt lv2 j).next := by
    intro j hj
    rw [hF_unfold, next_setPrev, nodeAt_setNext_ne _ _ _ _ hj]
  have hFprev_keep : ∀ j : Nat, (nodeAt lv1 w).next ≠ some j →
      (nodeAt (moveNodeP lv2 i) j).prev = (nodeAt lv2 j).prev := by
    intro j hj
    rw [hF_unfold, nodeAt_setPrev_ne _ _ _ _ hj, prev_setNext]
  have hFnext_mod : ∀ j : Nat, (nodeAt lv1 w).prev = some j → j < w →
      (nodeAt (moveNodeP lv2 i) j).next = some i := by
    intro j hj hjw
    rw [hF_unfold, next_setPrev, hj, nodeAt_setNext_eq _ _ _ (by omega)]
  have hFprev_mod : ∀ j : Nat, (nodeAt lv1 w).next = some j → j < w →
      (nodeAt (moveNodeP lv2 i) j).prev = some i := by
    intro j hj hjw
    rw [hF_unfold, hj, nodeAt_setPrev_eq _ _ _ (by rw [setNext_length]; omega)]
  have hqx : ∀ x ∈ qs, x ≠ w → x < w := by
    intro x hx hxw
    have := hP.bound x hx
    omega
  have hrn_get : ∀ t : Nat,
      (qs.map (fun x => if x = w then i else x))[t]? =
        (qs[t]?).map (fun x => if x = w then i else x) :=
    fun t => List.getElem?_map _ qs t
  have hrn_id : ∀ (t : Nat) (x : Nat), qs[t]? = some x → t ≠ jp →
      (if x = w then i else x) = x := by
    intro t x hx htjp
    rw [if_neg (getSome_ne hP.nodup hx hjp htjp)]
  -- an optional chain link at a position other than `jp` is unchanged by
  -- the renaming
  have hrn_opt : ∀ t : Nat, t ≠ jp →
      (qs[t]?).map (fun x => if x = w then i else x) = qs[t]? := by
    intro t htjp
    cases hqt : qs[t]? with
    | none => rfl
    | some x =>
      rw [Option.map_some', hrn_id t x hqt htjp]
  refine ⟨⟨?_, ?_, ?_, ?_, ?_, ?_⟩, hFlen, ?_⟩
  · intro p hp
    rw [hFlen]
    obtain ⟨x, hxmem, hxeq⟩ := List.mem_map.mp hp
    by_cases hxw : x = w
    · rw [← hxeq, if_pos hxw]; exact hiw
    · rw [← hxeq, if_neg hxw]; exact hqx x hxmem hxw
  · refine List.Nodup.map_on ?_ hP.nodup
    intro x hx y hy hxy
    by_cases hxw : x = w
    · by_cases hyw : y = w
      · rw [hxw, hyw]
      · rw [if_pos hxw, if_neg hyw] at hxy
        exact absurd hxy.symm (fun he => hinotin (he ▸ hy))
    · by_cases hyw : y = w
      · rw [if_neg hxw, if_pos hyw] at hxy
        exact absurd hxy (fun he => hinotin (he ▸ hx))
      · rwa [if_neg hxw, if_neg hyw] at hxy
  · show (moveNodeP lv2 i).head = _
    rw [hrn_get 0]
    by_cases hjp0 : jp = 0
    · have hq0 : qs[0]? = some w := hjp0 ▸ hjp
      rw [hq0, Option.map_some', if_pos rfl]
      rw [hF_unfold, setPrev_head, hwprev, if_pos hjp0, setNext_head_none]
    · rw [hrn_opt 0 (fun h => hjp0 h.symm)]
      obtain ⟨pk, hpk⟩ : ∃ pk : Nat, qs[jp - 1]? = some pk :=
        ⟨_, List.getElem?_eq_getElem (by omega)⟩
      rw [hF_unfold, setPrev_head, hwprev, if_neg hjp0, hpk, setNext_head_some]
      rw [h2head, hP.headOK]
  · show (moveNodeP lv2 i).tail = _
    have hlen_map : (qs.map (fun x => if x = w then i else x)).length = qs.length := by
      rw [List.length_map]
    rw [hlen_map, hrn_get (qs.length - 1)]
    by_cases hjpl : jp = qs.length - 1
    · have hql : qs[qs.length - 1]? = some w := hjpl ▸ hjp
      rw [hql, Option.map_some', if_pos rfl]
      rw [hF_unfold, hwnext, List.getElem?_eq_none (by omega), setPrev_tail_none]
    · rw [hrn_opt (qs.length - 1) (fun h => hjpl h.symm)]
      obtain ⟨nk, hnk⟩ : ∃ nk : Nat, qs[jp + 1]? = some nk :=
        ⟨_, List.getElem?_eq_getElem (by omega)⟩
      rw [hF_unfold, hwnext, hnk, setPrev_tail_some, setNext_tail, h2tail]
      rw [hP.tailOK]
  · intro t x' hx'
    rw [hrn_get t] at hx'
    cases hqt : qs[t]? with
    | none => rw [hqt] at hx'; exact Option.noConfusion hx'
    | some x =>
      rw [hqt, Option.map_some'] at hx'
      have hx'eq : (if x = w then i else x) = x' := Option.some.inj hx'
      by_cases htjp : t = jp
      · have hxw : x = w := by
          subst htjp
          exact Option.some.inj (hqt.symm.trans hjp)
        have hx'i : x' = i := by rw [← hx'eq, if_pos hxw]
        rw [hx'i, hFnext_keep i hPne_i, h2i, hwnext]
        rw [hrn_get (t + 1), htjp]
        exact (hrn_opt (jp + 1) (by omega)).symm
      · have hxw : x ≠ w := getSome_ne hP.nodup hqt hjp htjp
        have hx'x : x' = x := by rw [← hx'eq, if_neg hxw]
        rw [hx'x]
        have hxlt : x < w := hqx x (getSome_mem hqt) hxw
        by_cases hpm : (nodeAt lv1 w).prev = some x
        · -- `x` is the in-chain predecessor of the moved slot
          have hjp0 : ¬ jp = 0 := by
            intro h
            rw [hwprev, if_pos h] at hpm
            exact Option.noConfusion hpm
          have hxpos : qs[jp - 1]? = some x := by
            rw [hwprev, if_neg hjp0] at hpm
            exact hpm
          have htpos : t = jp - 1 := getSome_inj hP.nodup hqt hxpos
          rw [hFnext_mod x hpm hxlt]
          rw [hrn_get (t + 1), show t + 1 = jp by omega, hjp, Option.map_some', if_pos rfl]
        · rw [hFnext_keep x hpm, h2node x hxlt,
            if_neg (fun he : x = i => hinotin (he ▸ getSome_mem hqt)), hP.nextOK t x hqt]
          have ht1jp : t + 1 ≠ jp := by
            intro he
            apply hpm
            rw [hwprev, if_neg (by omega : ¬ jp = 0), ← he]
            simp only [Nat.add_sub_cancel]
            exact hqt
          rw [hrn_get (t + 1), hrn_opt (t + 1) ht1jp]
  · intro t x' hx'
    rw [hrn_get t] at hx'
    cases hqt : qs[t]? with
    | none => rw [hqt] at hx'; exact Option.noConfusion hx'
    | some x =>
      rw [hqt, Option.map_some'] at hx'
      have hx'eq : (if x = w then i else x) = x' := Option.some.inj hx'
      by_cases htjp : t = jp
      · have hxw : x = w := by
          subst htjp
          exact Option.some.inj (hqt.symm.trans hjp)
        have hx'i : x' = i := by rw [← hx'eq, if_pos hxw]
        rw [hx'i, hFprev_keep i hNne_i, h2i, hwprev]
        subst htjp
        by_cases ht0 : t = 0
        · rw [if_pos ht0, if_pos ht0]
        · rw [if_neg ht0, if_neg ht0, hrn_get (t - 1), hrn_opt (t - 1) (by omega)]
      · have hxw : x ≠ w := getSome_ne hP.nodup hqt hjp htjp
        have hx'x : x' = x := by rw [← hx'eq, if_neg hxw]
        rw [hx'x]
        have hxlt : x < w := hqx x (getSome_mem hqt) hxw
        by_cases hnm : (nodeAt lv1 w).next = some x
        · -- `x` is the in-chain successor of the moved slot
          have hxpos : qs[jp + 1]? = some x := by rw [← hwnext]; exact hnm
          have htpos : t = jp + 1 := getSome_inj hP.nodup hqt hxpos
          rw [hFprev_mod x hnm hxlt]
          rw [if_neg (by omega : ¬ t = 0), hrn_get (t - 1),
            show t - 1 = jp by omega, hjp, Option.map_some', if_pos rfl]
        · rw [hFprev_keep x hnm, h2node x hxlt,
            if_neg (fun he : x = i => hinotin (he ▸ getSome_mem hqt)), hP.prevOK t x hqt]
          by_cases ht0 : t = 0
          · rw [if_pos ht0, if_pos ht0]
          · have ht1jp : t - 1 ≠ jp := by
              intro he
              apply hnm
              rw [hwnext, ← he, show t - 1 + 1 = t by omega]
              exact hqt
            rw [if_neg ht0, if_neg ht0, hrn_get (t - 1), hrn_opt (t - 1) ht1jp]
  · unfold payloads
    rw [List.map_map]
    apply List.map_congr_left
    intro x hxmem
    show (nodeAt (moveNodeP lv2 i) (if x = w then i else x)).payload =
      (nodeAt lv1 x).payload
    by_cases hxw : x = w
    · rw [if_pos hxw, hFpay i, h2i, hxw]
    · rw [if_neg hxw, hFpay x, h2node x (hqx x hxmem hxw),
        if_neg (fun he : x = i => hinotin (he ▸ hxmem))]

theorem map_eraseIdx {α β : Type} (f : α → β) :
    ∀ (l : List α) (k : Nat), (l.eraseIdx k).map f = (l.map f).eraseIdx k := by
  intro l
  induction l with
  | nil => intro k; cases k <;> rfl
  | cons a l ih =>
    intro k
    cases k with
    | zero => rfl
    | succ n =>
      simp only [List.eraseIdx_cons_succ, List.map_cons]
      rw [ih n]

/-- The complete specification of `in_swap_remove` at the slot holding logical
position `k`: the returned payload is that slot's payload, and the remaining
container represents the old logical sequence with position `k` deleted. -/
theorem inSwapRemove_chain {lv : LinkedVec T} {ps : List Nat} (hC : ChainRep lv ps)
    (k i : Nat) (hk : ps[k]? = some i) :
    ∃ qs : List Nat, ChainRep (inSwapRemove lv i).2 qs ∧
      payloads (inSwapRemove lv i).2 qs = (payloads lv ps).eraseIdx k ∧
      (inSwapRemove lv i).1 = (nodeAt lv i).payload := by
  classical
  have hiL : i < lv.data.length := hC.bound i (getSome_mem hk)
  have hklen := getSome_lt hk
  have hlen : ps.length = lv.data.length := hC.lengthEq
  obtain ⟨hP1, h1len, h1pay⟩ := removeNodeP_chain hC k i hk
  have hqslen : (ps.eraseIdx k).length = ps.length - 1 := by
    rw [List.length_eraseIdx, if_pos hklen]
  have hinotin : i ∉ ps.eraseIdx k := not_mem_eraseIdx_self hC.nodup hk
  have hpayqs : payloads (removeNodeP lv i) (ps.eraseIdx k) =
      (payloads lv ps).eraseIdx k := by
    unfold payloads
    rw [← map_eraseIdx]
    exact List.map_congr_left (fun a _ => h1pay a)
  by_cases hil : i = lv.data.length - 1
  · -- the freed position is already physically last: plain truncation
    have hcond : ¬ (i ≠ (removeNodeP lv i).data.length - 1) := by
      rw [h1len]; omega
    have hres : inSwapRemove lv i =
        ((nodeAt (removeNodeP lv i) i).payload,
          { removeNodeP lv i with data := (removeNodeP lv i).data.dropLast }) := by
      simp only [inSwapRemove]
      rw [if_neg hcond]
    have h2node : ∀ j : Nat, j < (removeNodeP lv i).data.length - 1 →
        nodeAt { removeNodeP lv i with data := (removeNodeP lv i).data.dropLast } j =
          nodeAt (removeNodeP lv i) j := by
      intro j hj
      show (((removeNodeP lv i).data.dropLast)[j]?).getD default = _
      rw [List.dropLast_eq_take, List.getElem?_take, if_pos hj]
      rfl
    have hqlt : ∀ x ∈ ps.eraseIdx k, x < lv.data.length - 1 := by
      intro x hx
      have hxL : x < lv.data.length :=
        hC.bound x (List.Sublist.mem hx (List.eraseIdx_sublist ps k))
      have hxi : x ≠ i := fun he => hinotin (he ▸ hx)
      omega
    refine ⟨ps.eraseIdx k, ⟨?_, hP1.nodup, ?_, ?_, ?_, ?_, ?_⟩, ?_, ?_⟩
    · intro p hp
      rw [hres]
      show p < ((removeNodeP lv i).data.dropLast).length
      rw [List.length_dropLast, h1len]
      have := hqlt p hp
      omega
    · rw [hres]
      show (ps.eraseIdx k).length = (removeNodeP lv i).data.dropLast.length
      rw [List.length_dropLast, h1len, hqslen]
      omega
    · rw [hres]
      exact hP1.headOK
    · rw [hres]
      exact hP1.tailOK
    · intro t x hx
      rw [hres, h2node x (by rw [h1len]; exact hil ▸ hqlt x (getSome_mem hx))]
      exact hP1.nextOK t x hx
    · intro t x hx
      rw [hres, h2node x (by rw [h1len]; exact hil ▸ hqlt x (getSome_mem hx))]
      exact hP1.prevOK t x hx
    · rw [hres, ← hpayqs]
      unfold payloads
      exact List.map_congr_left
        (fun a ha => by rw [h2node a (by rw [h1len]; exact hqlt a ha)])
    · rw [hres, h1pay]
  · -- general case: relocate the physically last slot into the hole
    have hcond : i ≠ (removeNodeP lv i).data.length - 1 := by
      rw [h1len]; omega
    have hres : inSwapRemove lv i =
        ((nodeAt (removeNodeP lv i) i).payload,
          moveNodeP { removeNodeP lv i with data :=
            ((removeNodeP lv i).data.set i
              (nodeAt (removeNodeP lv i) ((removeNodeP lv i).data.length - 1))).dropLast } i) := by
      simp only [inSwapRemove]
      rw [if_pos hcond]
    have hw : lv.data.length - 1 = (removeNodeP lv i).data.length - 1 := by rw [h1len]
    have hmemw : lv.data.length - 1 ∈ ps.eraseIdx k := by
      obtain ⟨k2, hk2⟩ := hC.pos_of_lt (lv.data.length - 1) (by omega)
      have hk2k : k2 ≠ k := by
        intro he
        have : i = lv.data.length - 1 :=
          Option.some.inj ((he ▸ hk2).symm.trans hk).symm
        exact hil this
      exact mem_eraseIdx_of_pos_ne hk2 hk2k
    obtain ⟨hPF, hFlen, hFpays⟩ :=
      @relocate_chain T _ (removeNodeP lv i)
        { removeNodeP lv i with data :=
            ((removeNodeP lv i).data.set i
              (nodeAt (removeNodeP lv i) ((removeNodeP lv i).data.length - 1))).dropLast }
        (ps.eraseIdx k) hP1 i (lv.data.length - 1) hw (by omega)
        (by rw [hw]) hinotin (by omega) hmemw
    have hres2 : (inSwapRemove lv i).2 =
        moveNodeP { removeNodeP lv i with data :=
          ((removeNodeP lv i).data.set i
            (nodeAt (removeNodeP lv i) ((removeNodeP lv i).data.length - 1))).dropLast } i := by
      rw [hres]
    have hres1 : (inSwapRemove lv i).1 = (nodeAt (removeNodeP lv i) i).payload := by
      rw [hres]
    refine ⟨(ps.eraseIdx k).map
      (fun x => if x = lv.data.length - 1 then i else x), ?_, ?_, ?_⟩
    · rw [hres2]
      refine hPF.toChainRep ?_
      rw [List.length_map, hFlen, hqslen]
      omega
    · rw [hres2, hFpays, hpayqs]
    · rw [hres1, h1pay]

end Remove

/-! ## Operation-level corollaries -/

section Ops

variable [Inhabited T]

theorem eraseIdx_last {α : Type} :
    ∀ l : List α, l.eraseIdx (l.length - 1) = l.dropLast := by
  intro l
  induction l with
  | nil => rfl
  | cons a rest ih =>
    cases rest with
    | nil => rfl
    | cons b l2 =>
      show (a :: b :: l2).eraseIdx ((b :: l2).length - 1 + 1) = _
      rw [List.eraseIdx_cons_succ, ih]
      rfl

theorem payloads_length {lv : LinkedVec T} (ps : List Nat) :
    (payloads lv ps).length = ps.length := by
  unfold payloads
  rw [List.length_map]

/-- `pop_front` on an empty container returns `None`; on a non-empty one it
removes the logical head. -/
theorem popFront_chain {lv : LinkedVec T} {ps : List Nat} (hC : ChainRep lv ps)
    (hne : ps ≠ []) :
    ∃ (t : T) (lv2 : LinkedVec T) (qs : List Nat),
      popFront lv = some (t, lv2) ∧ ChainRep lv2 qs ∧
      payloads lv2 qs = (payloads lv ps).tail ∧
      (payloads lv ps).head? = some t := by
  have hlpos : 0 < ps.length := List.length_pos.mpr hne
  have hLpos : lv.data.length ≠ 0 := by
    rw [← hC.lengthEq]; omega
  obtain ⟨h0, hh0⟩ : ∃ h0 : Nat, ps[0]? = some h0 :=
    ⟨_, List.getElem?_eq_getElem (by omega)⟩
  have hhead : lv.head = some h0 := by rw [hC.headOK, hh0]
  obtain ⟨qs, hCq, hpay, hret⟩ := inSwapRemove_chain hC 0 h0 hh0
  refine ⟨(inSwapRemove lv h0).1, (inSwapRemove lv h0).2, qs, ?_, hCq, ?_, ?_⟩
  · rw [popFront, if_neg hLpos, hhead, Option.map_some']
  · rw [hpay, List.eraseIdx_zero]
  · rw [hret]
    unfold payloads
    rw [List.head?_map, List.head?_eq_getElem?, hh0, Option.map_some']

/-- `pop_back` on a non-empty container removes the logical tail. -/
theorem popBack_chain {lv : LinkedVec T} {ps : List Nat} (hC : ChainRep lv ps)
    (hne : ps ≠ []) :
    ∃ (t : T) (lv2 : LinkedVec T) (qs : List Nat),
      popBack lv = some (t, lv2) ∧ ChainRep lv2 qs ∧
      payloads lv2 qs = (payloads lv ps).dropLast ∧
      (payloads lv ps).getLast? = some t := by
  have hlpos : 0 < ps.length := List.length_pos.mpr hne
  have hLpos : lv.data.length ≠ 0 := by
    rw [← hC.lengthEq]; omega
  obtain ⟨t0, ht0⟩ : ∃ t0 : Nat, ps[ps.length - 1]? = some t0 :=
    ⟨_, List.getElem?_eq_getElem (by omega)⟩
  have htail : lv.tail = some t0 := by rw [hC.tailOK, ht0]
  obtain ⟨qs, hCq, hpay, hret⟩ := inSwapRemove_chain hC (ps.length - 1) t0 ht0
  refine ⟨(inSwapRemove lv t0).1, (inSwapRemove lv t0).2, qs, ?_, hCq, ?_, ?_⟩
  · rw [popBack, if_neg hLpos, htail, Option.map_some']
  · rw [hpay, ← @payloads_length T _ lv ps, eraseIdx_last]
  · rw [hret, List.getLast?_eq_getElem?, payloads_length]
    unfold payloads
    rw [List.getElem?_map, ht0, Option.map_some']

@[simp] theorem removeNodeP_length {lv : LinkedVec T} (t : Nat) :
    (removeNodeP lv t).data.length = lv.data.length := by
  rw [removeNodeP, pair, setPrev_length, setNext_length]

/-- `pop` coincides with `in_swap_remove` at the physically last slot. -/
theorem pop_eq_inSwapRemove {lv : LinkedVec T} (h : lv.data.length ≠ 0) :
    pop lv = some (inSwapRemove lv (lv.data.length - 1)) := by
  rw [pop, if_neg h]
  have hlen1 : (removeNodeP lv (lv.data.length - 1)).data.length = lv.data.length :=
    removeNodeP_length _
  have hcond : ¬ (lv.data.length - 1 ≠
      (removeNodeP lv (lv.data.length - 1)).data.length - 1) := by
    rw [hlen1]
    omega
  simp only [inSwapRemove]
  rw [if_neg hcond, hlen1]

/-- `pop` removes the payload of the physically last slot from wherever that
slot sits in the logical sequence, preserving the order of the rest. -/
theorem pop_chain {lv : LinkedVec T} {ps : List Nat} (hC : ChainRep lv ps)
    (hne : ps ≠ []) :
    ∃ (k : Nat) (t : T) (lv2 : LinkedVec T) (qs : List Nat),
      pop lv = some (t, lv2) ∧ ChainRep lv2 qs ∧
      ps[k]? = some (lv.data.length - 1) ∧
      payloads lv2 qs = (payloads lv ps).eraseIdx k ∧
      (payloads lv ps)[k]? = some t := by
  have hlpos : 0 < ps.length := List.length_pos.mpr hne
  have hL : lv.data.length ≠ 0 := by rw [← hC.lengthEq]; omega
  obtain ⟨k, hk⟩ := hC.pos_of_lt (lv.data.length - 1) (by omega)
  obtain ⟨qs, hCq, hpay, hret⟩ := inSwapRemove_chain hC k _ hk
  refine ⟨k, (inSwapRemove lv (lv.data.length - 1)).1,
    (inSwapRemove lv (lv.data.length - 1)).2, qs, ?_, hCq, hk, hpay, ?_⟩
  · rw [pop_eq_inSwapRemove hL]
  · rw [hret]
    unfold payloads
    rw [List.getElem?_map, hk, Option.map_some']

/-- `swap_remove` at an in-bounds physical index removes that slot's payload
from its logical position, preserving the order of the rest. -/
theorem swapRemove_chain {lv : LinkedVec T} {ps : List Nat} (hC : ChainRep lv ps)
    (i : Nat) (hi : i < lv.data.length) :
    ∃ (k : Nat) (lv2 : LinkedVec T) (qs : List Nat),
      swapRemove lv i = some ((nodeAt lv i).payload, lv2) ∧ ChainRep lv2 qs ∧
      ps[k]? = some i ∧
      payloads lv2 qs = (payloads lv ps).eraseIdx k := by
  obtain ⟨k, hk⟩ := hC.pos_of_lt i hi
  obtain ⟨qs, hCq, hpay, hret⟩ := inSwapRemove_chain hC k i hk
  refine ⟨k, (inSwapRemove lv i).2, qs, ?_, hCq, hk, hpay⟩
  rw [swapRemove, if_neg (by omega : ¬ i ≥ lv.data.length), ← hret]

/-- `swap_p` exchanges two payloads and leaves the link structure intact. -/
theorem swapP_chain {lv : LinkedVec T} {ps : List Nat} (hC : ChainRep lv ps)
    (a b : Nat) (ha : a < lv.data.length) (hb : b < lv.data.length) :
    ∃ lv2, swapP lv a b = some lv2 ∧ ChainRep lv2 ps := by
  classical
  refine ⟨_, by rw [swapP, if_pos ⟨ha, hb⟩], ?_⟩
  set d2 := (lv.data.set a { nodeAt lv a with payload := (nodeAt lv b).payload }).set b
    { nodeAt lv b with payload := (nodeAt lv a).payload } with hd2
  have hlen2 : d2.length = lv.data.length := by
    rw [hd2, List.length_set, List.length_set]
  have hnode : ∀ j : Nat,
      (nodeAt { lv with data := d2 } j).next = (nodeAt lv j).next ∧
      (nodeAt { lv with data := d2 } j).prev = (nodeAt lv j).prev := by
    intro j
    show ((d2[j]?).getD default).next = _ ∧ ((d2[j]?).getD default).prev = _
    rw [hd2, List.getElem?_set, List.getElem?_set, List.length_set]
    by_cases hbj : b = j
    · rw [if_pos hbj, if_pos (by omega : b < lv.data.length)]
      subst hbj
      constructor <;> rfl
    · rw [if_neg hbj]
      by_cases haj : a = j
      · rw [if_pos haj, if_pos (by omega : a < lv.data.length)]
        subst haj
        constructor <;> rfl
      · rw [if_neg haj]
        constructor <;> rfl
  refine ⟨?_, hC.nodup, ?_, hC.headOK, hC.tailOK, ?_, ?_⟩
  · intro p hp
    show p < d2.length
    rw [hlen2]
    exact hC.bound p hp
  · show ps.length = d2.length
    rw [hlen2]
    exact hC.lengthEq
  · intro k x hx
    rw [(hnode x).1]
    exact hC.nextOK k x hx
  · intro k x hx
    rw [(hnode x).2]
    exact hC.prevOK k x hx

/-- `clear` yields the empty chain. -/
theorem clear_chain (lv : LinkedVec T) : ChainRep (clear lv) [] := by
  refine ⟨?_, ?_, ?_, ?_, ?_, ?_, ?_⟩ <;> simp [clear]

/-- `extend` pushes every element at the logical end, in order. -/
theorem extendList_chain {lv : LinkedVec T} {ps : List Nat} (hC : ChainRep lv ps)
    (m : Nat) (l : List T) (hm : lv.data.length + l.length ≤ m + 1) :
    ∃ (lv2 : LinkedVec T) (qs : List Nat), extendList m lv l = some lv2 ∧
      ChainRep lv2 qs ∧ payloads lv2 qs = payloads lv ps ++ l := by
  induction l generalizing lv ps with
  | nil => exact ⟨lv, ps, rfl, hC, by simp⟩
  | cons v rest ih =>
    obtain ⟨lv2, hpush, hC2, hpay2⟩ := pushBack_chain hC m v (by simp at hm; omega)
    have hlen2 : lv2.data.length = lv.data.length + 1 := by
      have h1 := hC2.lengthEq
      rw [List.length_append, List.length_singleton, hC.lengthEq] at h1
      omega
    obtain ⟨lv3, qs3, hext, hC3, hpay3⟩ := ih hC2 (by simp at hm; omega)
    refine ⟨lv3, qs3, ?_, hC3, ?_⟩
    · rw [extendList, hpush]
      exact hext
    · rw [hpay3, hpay2]
      simp

/-- Draining via repeated `pop_front` yields the logical sequence. -/
theorem drainFront_chain {lv : LinkedVec T} {ps : List Nat} (hC : ChainRep lv ps) :
    ∀ n : Nat, n = ps.length → drainFront n lv = payloads lv ps := by
  intro n
  induction n generalizing lv ps with
  | zero =>
    intro hn
    have : ps = [] := List.length_eq_zero.mp hn.symm
    rw [this]
    rfl
  | succ n ih =>
    intro hn
    have hne : ps ≠ [] := by
      intro h
      rw [h] at hn
      exact Nat.noConfusion hn
    obtain ⟨t, lv2, qs, hpop, hC2, hpay2, hhd⟩ := popFront_chain hC hne
    have hqslen : n = qs.length := by
      have h1 : (payloads lv2 qs).length = (payloads lv ps).tail.length := by
        rw [hpay2]
      rw [payloads_length, List.length_tail, payloads_length] at h1
      omega
    rw [drainFront, hpop]
    show t :: drainFront n lv2 = payloads lv ps
    rw [ih hC2 hqslen, hpay2]
    exact List.cons_head?_tail hhd

/-- `IntoIterator` (drain to a list) yields the logical sequence. -/
theorem intoList_chain {lv : LinkedVec T} {ps : List Nat} (hC : ChainRep lv ps) :
    intoList lv = payloads lv ps :=
  drainFront_chain hC lv.data.length hC.lengthEq.symm

/-- `append` concatenates the two logical sequences and leaves `other` equal to
a freshly constructed empty container. -/
theorem appendOp_chain {a b : LinkedVec T} {psA psB : List Nat}
    (hCa : ChainRep a psA) (hCb : ChainRep b psB) (m : Nat)
    (hm : a.data.length + b.data.length ≤ m + 1) :
    ∃ (a2 : LinkedVec T) (qs : List Nat),
      appendOp m a b = some (a2, LinkedVec.new) ∧ ChainRep a2 qs ∧
      payloads a2 qs = payloads a psA ++ payloads b psB := by
  have hinto : intoList b = payloads b psB := intoList_chain hCb
  have hlen : (intoList b).length = b.data.length := by
    rw [hinto, payloads_length, hCb.lengthEq]
  obtain ⟨a2, qs, hext, hC2, hpay⟩ :=
    extendList_chain hCa m (intoList b) (by omega)
  refine ⟨a2, qs, ?_, hC2, ?_⟩
  · rw [appendOp, hext, Option.map_some']
  · rw [hpay, hinto]

end Ops

/-! ## Operation sequences and the reference deque model -/

section Exec

variable [Inhabited T]

/-- The five mutating operations of the order-equivalence property. -/
inductive Op (T : Type) where
  | pushFrontOp (v : T)
  | pushBackOp (v : T)
  | popFrontOp
  | popBackOp
  | popOp
deriving Repr, DecidableEq

/-- One step of the container, paired with the value a pop returns (`none` for
pushes and for pops of an empty container, which leave the state unchanged).
A `none` result is a capacity-overflow panic of a push. -/
def stepOp (m : Nat) (lv : LinkedVec T) : Op T → Option (LinkedVec T × Option T)
  | Op.pushFrontOp v => (pushFront m lv v).map (fun lv2 => (lv2, none))
  | Op.pushBackOp v => (pushBack m lv v).map (fun lv2 => (lv2, none))
  | Op.popFrontOp =>
    some (match popFront lv with
      | none => (lv, none)
      | some p => (p.2, some p.1))
  | Op.popBackOp =>
    some (match popBack lv with
      | none => (lv, none)
      | some p => (p.2, some p.1))
  | Op.popOp =>
    some (match pop lv with
      | none => (lv, none)
      | some p => (p.2, some p.1))

/-- Runs a whole operation sequence, collecting the step outputs. -/
def execOps (m : Nat) (lv : LinkedVec T) :
    List (Op T) → Option (LinkedVec T × List (Option T))
  | [] => some (lv, [])
  | o :: rest =>
    (stepOp m lv o).bind (fun p =>
      (execOps m p.1 rest).map (fun q => (q.1, p.2 :: q.2)))

/-- Modelled from the spec: one step of the reference double-ended queue that
the order-equivalence property replays the operations against, with `pop`
replayed as removing the model's last element, exactly as the claim reads it. -/
def dequeStep (l : List T) : Op T → List T × Option T
  | Op.pushFrontOp v => (v :: l, none)
  | Op.pushBackOp v => (l ++ [v], none)
  | Op.popFrontOp => (l.tail, l.head?)
  | Op.popBackOp => (l.dropLast, l.getLast?)
  | Op.popOp => (l.dropLast, l.getLast?)

/-- Modelled from the spec: replaying a whole operation sequence against the
reference deque. -/
def dequeExec (l : List T) : List (Op T) → List T × List (Option T)
  | [] => (l, [])
  | o :: rest =>
    let p := dequeStep l o
    let q := dequeExec p.1 rest
    (q.1, p.2 :: q.2)

theorem popFront_none {lv : LinkedVec T} (h : lv.data.length = 0) :
    popFront lv = none := by
  rw [popFront, if_pos h]

theorem popBack_none {lv : LinkedVec T} (h : lv.data.length = 0) :
    popBack lv = none := by
  rw [popBack, if_pos h]

theorem pop_none {lv : LinkedVec T} (h : lv.data.length = 0) :
    pop lv = none := by
  rw [pop, if_pos h]

theorem pushFront_le {m : Nat} {lv : LinkedVec T} {v : T} {lv2 : LinkedVec T}
    (h : pushFront m lv v = some lv2) : lv.data.length ≤ m := by
  by_contra hc
  rw [pushFront, pushP] at h
  simp only [Nat.not_le] at hc
  rw [if_pos hc] at h
  exact Option.noConfusion h

theorem pushBack_le {m : Nat} {lv : LinkedVec T} {v : T} {lv2 : LinkedVec T}
    (h : pushBack m lv v = some lv2) : lv.data.length ≤ m := by
  by_contra hc
  rw [pushBack, pushP] at h
  simp only [Nat.not_le] at hc
  rw [if_pos hc] at h
  exact Option.noConfusion h

/-- Main refinement: a successful run of a pop-free operation sequence leaves a
container whose chain carries exactly the reference deque's contents, and the
outputs agree step by step. -/
theorem execOps_refines (m : Nat) :
    ∀ (ops : List (Op T)), (∀ o ∈ ops, o ≠ Op.popOp) →
      ∀ (lv : LinkedVec T) (ps : List Nat), ChainRep lv ps →
      ∀ res : LinkedVec T × List (Option T),
      execOps m lv ops = some res →
      ∃ qs : List Nat, ChainRep res.1 qs ∧
        payloads res.1 qs = (dequeExec (payloads lv ps) ops).1 ∧
        res.2 = (dequeExec (payloads lv ps) ops).2 := by
  intro ops
  induction ops with
  | nil =>
    intro _ lv ps hC res hres
    cases Option.some.inj hres
    exact ⟨ps, hC, rfl, rfl⟩
  | cons o rest ih =>
    intro hops lv ps hC res hres
    have hrest : ∀ o2 ∈ rest, o2 ≠ Op.popOp :=
      fun o2 ho2 => hops o2 (List.mem_cons_of_mem o ho2)
    rw [execOps] at hres
    cases o with
    | pushFrontOp v =>
      rw [stepOp] at hres
      cases hpush : pushFront m lv v with
      | none => rw [hpush] at hres; exact Option.noConfusion hres
      | some lv2 =>
        rw [hpush] at hres
        simp only [Option.map_some', Option.some_bind] at hres
        obtain ⟨lv2', hpush', hC2, hpay2⟩ :=
          pushFront_chain hC m v (pushFront_le hpush)
        have hlv2 : lv2' = lv2 := Option.some.inj (hpush'.symm.trans hpush)
        rw [hlv2] at hC2 hpay2
        cases hrec : execOps m lv2 rest with
        | none => rw [hrec] at hres; exact Option.noConfusion hres
        | some q =>
          rw [hrec] at hres
          simp only [Option.map_some'] at hres
          cases Option.some.inj hres
          obtain ⟨qs, hCq, hpayq, houtq⟩ := ih hrest lv2 _ hC2 q hrec
          refine ⟨qs, hCq, ?_, ?_⟩
          · show payloads q.1 qs = (dequeExec (payloads lv ps) (Op.pushFrontOp v :: rest)).1
            rw [dequeExec]
            show _ = (dequeExec (v :: payloads lv ps) rest).1
            rw [hpayq, hpay2]
          · show none :: q.2 = (dequeExec (payloads lv ps) (Op.pushFrontOp v :: rest)).2
            rw [dequeExec]
            show _ = none :: (dequeExec (v :: payloads lv ps) rest).2
            rw [houtq, hpay2]
    | pushBackOp v =>
      rw [stepOp] at hres
      cases hpush : pushBack m lv v with
      | none => rw [hpush] at hres; exact Option.noConfusion hres
      | some lv2 =>
        rw [hpush] at hres
        simp only [Option.map_some', Option.some_bind] at hres
        obtain ⟨lv2', hpush', hC2, hpay2⟩ :=
          pushBack_chain hC m v (pushBack_le hpush)
        have hlv2 : lv2' = lv2 := Option.some.inj (hpush'.symm.trans hpush)
        rw [hlv2] at hC2 hpay2
        cases hrec : execOps m lv2 rest with
        | none => rw [hrec] at hres; exact Option.noConfusion hres
        | some q =>
          rw [hrec] at hres
          simp only [Option.map_some'] at hres
          cases Option.some.inj hres
          obtain ⟨qs, hCq, hpayq, houtq⟩ := ih hrest lv2 _ hC2 q hrec
          refine ⟨qs, hCq, ?_, ?_⟩
          · show payloads q.1 qs = (dequeExec (payloads lv ps) (Op.pushBackOp v :: rest)).1
            rw [dequeExec]
            show _ = (dequeExec (payloads lv ps ++ [v]) rest).1
            rw [hpayq, hpay2]
          · show none :: q.2 = (dequeExec (payloads lv ps) (Op.pushBackOp v :: rest)).2
            rw [dequeExec]
            show _ = none :: (dequeExec (payloads lv ps ++ [v]) rest).2
            rw [houtq, hpay2]
    | popFrontOp =>
      rw [stepOp] at hres
      by_cases hps : ps = []
      · subst hps
        have hL : lv.data.length = 0 := hC.lengthEq ▸ rfl
        rw [popFront_none hL] at hres
        simp only [Option.some_bind] at hres
        cases hrec : execOps m lv rest with
        | none => rw [hrec] at hres; exact Option.noConfusion hres
        | some q =>
          rw [hrec] at hres
          simp only [Option.map_some'] at hres
          cases Option.some.inj hres
          obtain ⟨qs, hCq, hpayq, houtq⟩ := ih hrest lv [] hC q hrec
          refine ⟨qs, hCq, ?_, ?_⟩
          · show payloads q.1 qs = (dequeExec (payloads lv []) (Op.popFrontOp :: rest)).1
            rw [dequeExec]
            exact hpayq
          · show none :: q.2 = (dequeExec (payloads lv []) (Op.popFrontOp :: rest)).2
            rw [dequeExec]
            show _ = (payloads lv []).head? :: (dequeExec (payloads lv []).tail rest).2
            rw [houtq]
            rfl
      · obtain ⟨t, lv2, qs2, hpop, hC2, hpay2, hhd⟩ := popFront_chain hC hps
        rw [hpop] at hres
        simp only [Option.some_bind] at hres
        cases hrec : execOps m lv2 rest with
        | none => rw [hrec] at hres; exact Option.noConfusion hres
        | some q =>
          rw [hrec] at hres
          simp only [Option.map_some'] at hres
          cases Option.some.inj hres
          obtain ⟨qs, hCq, hpayq, houtq⟩ := ih hrest lv2 qs2 hC2 q hrec
          refine ⟨qs, hCq, ?_, ?_⟩
          · show payloads q.1 qs = (dequeExec (payloads lv ps) (Op.popFrontOp :: rest)).1
            rw [dequeExec]
            show _ = (dequeExec (payloads lv ps).tail rest).1
            rw [hpayq, hpay2]
          · show some t :: q.2 = (dequeExec (payloads lv ps) (Op.popFrontOp :: rest)).2
            rw [dequeExec]
            show _ = (payloads lv ps).head? :: (dequeExec (payloads lv ps).tail rest).2
            rw [houtq, hpay2, hhd]
    | popBackOp =>
      rw [stepOp] at hres
      by_cases hps : ps = []
      · subst hps
        have hL : lv.data.length = 0 := hC.lengthEq ▸ rfl
        rw [popBack_none hL] at hres
        simp only [Option.some_bind] at hres
        cases hrec : execOps m lv rest with
        | none => rw [hrec] at hres; exact Option.noConfusion hres
        | some q =>
          rw [hrec] at hres
          simp only [Option.map_some'] at hres
          cases Option.some.inj hres
          obtain ⟨qs, hCq, hpayq, houtq⟩ := ih hrest lv [] hC q hrec
          refine ⟨qs, hCq, ?_, ?_⟩
          · show payloads q.1 qs = (dequeExec (payloads lv []) (Op.popBackOp :: rest)).1
            rw [dequeExec]
            exact hpayq
          · show none :: q.2 = (dequeExec (payloads lv []) (Op.popBackOp :: rest)).2
            rw [dequeExec]
            show _ = (payloads lv []).getLast? :: (dequeExec (payloads lv []).dropLast rest).2
            rw [houtq]
            rfl
      · obtain ⟨t, lv2, qs2, hpop, hC2, hpay2, hlast⟩ := popBack_chain hC hps
        rw [hpop] at hres
        simp only [Option.some_bind] at hres
        cases hrec : execOps m lv2 rest with
        | none => rw [hrec] at hres; exact Option.noConfusion hres
        | some q =>
          rw [hrec] at hres
          simp only [Option.map_some'] at hres
          cases Option.some.inj hres
          obtain ⟨qs, hCq, hpayq, houtq⟩ := ih hrest lv2 qs2 hC2 q hrec
          refine ⟨qs, hCq, ?_, ?_⟩
          · show payloads q.1 qs = (dequeExec (payloads lv ps) (Op.popBackOp :: rest)).1
            rw [dequeExec]
            show _ = (dequeExec (payloads lv ps).dropLast rest).1
            rw [hpayq, hpay2]
          · show some t :: q.2 = (dequeExec (payloads lv ps) (Op.popBackOp :: rest)).2
            rw [dequeExec]
            show _ = (payloads lv ps).getLast? :: (dequeExec (payloads lv ps).dropLast rest).2
            rw [houtq, hpay2, hlast]
    | popOp =>
      exact absurd rfl (hops Op.popOp (List.mem_cons_self _ _))

/-- A successful run of any operation sequence (pops of the physically last
slot included) preserves the chain invariant. -/
theorem execOps_wf (m : Nat) :
    ∀ (ops : List (Op T)) (lv : LinkedVec T) (ps : List Nat), ChainRep lv ps →
      ∀ res : LinkedVec T × List (Option T),
      execOps m lv ops = some res →
      ∃ qs : List Nat, ChainRep res.1 qs := by
  intro ops
  induction ops with
  | nil =>
    intro lv ps hC res hres
    cases Option.some.inj hres
    exact ⟨ps, hC⟩
  | cons o rest ih =>
    intro lv ps hC res hres
    rw [execOps] at hres
    cases hstep : stepOp m lv o with
    | none => rw [hstep] at hres; exact Option.noConfusion hres
    | some p =>
      rw [hstep] at hres
      simp only [Option.some_bind] at hres
      cases hrec : execOps m p.1 rest with
      | none => rw [hrec] at hres; exact Option.noConfusion hres
      | some q =>
        rw [hrec] at hres
        simp only [Option.map_some'] at hres
        cases Option.some.inj hres
        have hstate : ∃ qs2 : List Nat, ChainRep p.1 qs2 := by
          cases o with
          | pushFrontOp v =>
            rw [stepOp] at hstep
            cases hpush : pushFront m lv v with
            | none => rw [hpush] at hstep; exact Option.noConfusion hstep
            | some lv2 =>
              rw [hpush] at hstep
              simp only [Option.map_some'] at hstep
              obtain ⟨lv2', hpush', hC2, _⟩ :=
                pushFront_chain hC m v (pushFront_le hpush)
              have : lv2' = lv2 := Option.some.inj (hpush'.symm.trans hpush)
              subst this
              cases Option.some.inj hstep
              exact ⟨_, hC2⟩
          | pushBackOp v =>
            rw [stepOp] at hstep
            cases hpush : pushBack m lv v with
            | none => rw [hpush] at hstep; exact Option.noConfusion hstep
            | some lv2 =>
              rw [hpush] at hstep
              simp only [Option.map_some'] at hstep
              obtain ⟨lv2', hpush', hC2, _⟩ :=
                pushBack_chain hC m v (pushBack_le hpush)
              have : lv2' = lv2 := Option.some.inj (hpush'.symm.trans hpush)
              subst this
              cases Option.some.inj hstep
              exact ⟨_, hC2⟩
          | popFrontOp =>
            rw [stepOp] at hstep
            by_cases hps : ps = []
            · subst hps
              rw [popFront_none (hC.lengthEq ▸ rfl)] at hstep
              cases Option.some.inj hstep
              exact ⟨[], hC⟩
            · obtain ⟨t, lv2, qs2, hpop, hC2, _, _⟩ := popFront_chain hC hps
              rw [hpop] at hstep
              cases Option.some.inj hstep
              exact ⟨qs2, hC2⟩
          | popBackOp =>
            rw [stepOp] at hstep
            by_cases hps : ps = []
            · subst hps
              rw [popBack_none (hC.lengthEq ▸ rfl)] at hstep
              cases Option.some.inj hstep
              exact ⟨[], hC⟩
            · obtain ⟨t, lv2, qs2, hpop, hC2, _, _⟩ := popBack_chain hC hps
              rw [hpop] at hstep
              cases Option.some.inj hstep
              exact ⟨qs2, hC2⟩
          | popOp =>
            rw [stepOp] at hstep
            by_cases hps : ps = []
            · subst hps
              rw [pop_none (hC.lengthEq ▸ rfl)] at hstep
              cases Option.some.inj hstep
              exact ⟨[], hC⟩
            · obtain ⟨k, t, lv2, qs2, hpop, hC2, _, _, _⟩ := pop_chain hC hps
              rw [hpop] at hstep
              cases Option.some.inj hstep
              exact ⟨qs2, hC2⟩
        obtain ⟨qs2, hC2⟩ := hstate
        exact ih p.1 qs2 hC2 q hrec

end Exec

/-! ## Cursors (`src/iterators.rs`) -/

section Cursors

variable [Inhabited T]

/-- Mirrors `VecCursor` (and the identical state of `VecCursorMut`): a logical
index and an optional current physical index; `current_pa = none` is the ghost
position.  The borrowed list is passed to each operation. -/
structure VecCursor where
  index_la : Nat
  current_pa : Option Nat
deriving Repr, DecidableEq

/-- Mirrors `LinkedVec::cursor_front`. -/
def cursorFront (lv : LinkedVec T) : VecCursor :=
  ⟨0, lv.head⟩

/-- Mirrors `LinkedVec::cursor_back`. -/
def cursorBack (lv : LinkedVec T) : VecCursor :=
  match lv.tail with
  | some t => ⟨lv.data.length - 1, some t⟩
  | none => ⟨0, none⟩

/-- Mirrors `VecCursor::move_next`. -/
def cMoveNext (lv : LinkedVec T) (c : VecCursor) : VecCursor :=
  match c.current_pa with
  | none => ⟨0, lv.head⟩
  | some current => ⟨c.index_la + 1, (nodeAt lv current).next⟩

/-- Mirrors `VecCursor::move_prev`; `checked_sub(1).unwrap_or(..)` becomes the
two `if` branches. -/
def cMovePrev (lv : LinkedVec T) (c : VecCursor) : VecCursor :=
  match c.current_pa with
  | none => ⟨lv.data.length - 1, lv.tail⟩
  | some current =>
    ⟨if c.index_la = 0 then lv.data.length else c.index_la - 1,
      (nodeAt lv current).prev⟩

/-- Mirrors `VecCursor::current`. -/
def cCurrent (lv : LinkedVec T) (c : VecCursor) : Option T :=
  c.current_pa.map (fun i => (nodeAt lv i).payload)

/-- Mirrors `VecCursor::index_l`. -/
def cIndexL (c : VecCursor) : Option Nat :=
  c.current_pa.map (fun _ => c.index_la)

/-- Mirrors `VecCursor::index_p`. -/
def cIndexP (c : VecCursor) : Option Nat :=
  c.current_pa

/-- Mirrors `VecCursor::peek_next`: clone the cursor, move it, read it — the
original cursor is not part of the result, so it cannot be mutated. -/
def cPeekNext (lv : LinkedVec T) (c : VecCursor) : Option T :=
  cCurrent lv (cMoveNext lv c)

/-- Mirrors `VecCursor::peek_prev`. -/
def cPeekPrev (lv : LinkedVec T) (c : VecCursor) : Option T :=
  cCurrent lv (cMovePrev lv c)

/-- Mirrors `LinkedVec::cursor_front_mut`; `VecCursorMut` duplicates
`VecCursor`'s fields and logic verbatim in the source. -/
def cursorFrontMut (lv : LinkedVec T) : VecCursor :=
  ⟨0, lv.head⟩

/-- Mirrors `LinkedVec::cursor_back_mut`. -/
def cursorBackMut (lv : LinkedVec T) : VecCursor :=
  match lv.tail with
  | some t => ⟨lv.data.length - 1, some t⟩
  | none => ⟨0, none⟩

/-- Mirrors `VecCursorMut::move_next` (textually identical to the immutable
version). -/
def cMoveNextMut (lv : LinkedVec T) (c : VecCursor) : VecCursor :=
  match c.current_pa with
  | none => ⟨0, lv.head⟩
  | some current => ⟨c.index_la + 1, (nodeAt lv current).next⟩

/-- Mirrors `VecCursorMut::move_prev`. -/
def cMovePrevMut (lv : LinkedVec T) (c : VecCursor) : VecCursor :=
  match c.current_pa with
  | none => ⟨lv.data.length - 1, lv.tail⟩
  | some current =>
    ⟨if c.index_la = 0 then lv.data.length else c.index_la - 1,
      (nodeAt lv current).prev⟩

/-- Mirrors `NonEmptyVecCursor`: no ghost state. -/
structure NEVecCursor where
  index_la : Nat
  current_pa : Nat
deriving Repr, DecidableEq

/-- Mirrors `VecCursor::as_nonempty_cursor`. -/
def asNonemptyCursor (c : VecCursor) : Option NEVecCursor :=
  c.current_pa.map (fun p => ⟨c.index_la, p⟩)

/-- Mirrors `NonEmptyVecCursor::move_next`: wraps to the head (`head.unwrap()`,
which cannot fail on a reachable state holding a node) returning `false`, else
advances returning `true`. -/
def neMoveNext (lv : LinkedVec T) (c : NEVecCursor) : NEVecCursor × Bool :=
  match (nodeAt lv c.current_pa).next with
  | none => (⟨0, (lv.head.getD 0)⟩, false)
  | some nxt => (⟨c.index_la + 1, nxt⟩, true)

/-- Mirrors `NonEmptyVecCursor::move_prev`. -/
def neMovePrev (lv : LinkedVec T) (c : NEVecCursor) : NEVecCursor × Bool :=
  match (nodeAt lv c.current_pa).prev with
  | none => (⟨lv.data.length - 1, (lv.tail.getD 0)⟩, false)
  | some prv => (⟨c.index_la - 1, prv⟩, true)

/-- A sequence of cursor moves (`true` = `move_next`, `false` = `move_prev`). -/
def applyMoves (lv : LinkedVec T) : List Bool → VecCursor → VecCursor
  | [], c => c
  | b :: rest, c =>
    applyMoves lv rest (if b then cMoveNext lv c else cMovePrev lv c)

/-- The same move sequence through the mutable cursor's (duplicated) code. -/
def applyMovesMut (lv : LinkedVec T) : List Bool → VecCursor → VecCursor
  | [], c => c
  | b :: rest, c =>
    applyMovesMut lv rest (if b then cMoveNextMut lv c else cMovePrevMut lv c)

end Cursors

/-! ## The bounded index codec (`src/inner_types.rs`) -/

section Codec

/-- Mirrors `storeindex_for_prim!`: `MAX_USIZE = min_max!(Self::MAX, usize::MAX)`
for a primitive whose maximum value is `tmax`. -/
def plainMaxUsize (tmax : Nat) : Nat := min tmax usizeMax

/-- Mirrors the plain `try_from_usize`, i.e. `Self::try_from(value)`: a checked
conversion that succeeds exactly on values representable in the primitive
(`value ≤ tmax`; a `usize` is never below a primitive's minimum). -/
def plainTryFromUsize (tmax : Nat) (v : Nat) : Option Nat :=
  if v ≤ tmax then some v else none

/-- Mirrors the plain `to_usize`, i.e. `usize::try_from(*self).unwrap()`:
panics (`none`) above `usize::MAX` (possible only for 128-bit values). -/
def plainToUsize (x : Nat) : Option Nat :=
  if x ≤ usizeMax then some x else none

/-- Mirrors `storeindex_for_nonmax!` `MAX_USIZE` for `NonMax` over an unsigned
primitive of bit width `w`: `Self::MAX.get() = 2 ^ w - 2`. -/
def nmUMaxUsize (w : Nat) : Nat := min (2 ^ w - 2) usizeMax

/-- Mirrors the nonmax `try_from_usize` over an unsigned primitive of width
`w`: `Self::try_from(value as $prim)?` — the `as` cast TRUNCATES to the low
`w` bits, and the conversion then fails only when the truncated pattern is the
primitive's maximum. -/
def nmUTryFromUsize (w : Nat) (v : Nat) : Option Nat :=
  let c := v % 2 ^ w
  if c = 2 ^ w - 1 then none else some c

/-- Mirrors the nonmax `to_usize`: `usize::try_from(self.get()).unwrap()`. -/
def nmUToUsize (x : Nat) : Option Nat :=
  if x ≤ usizeMax then some x else none

/-- Mirrors `value as $prim` for a signed primitive of width `w`: truncate to
`w` bits and reinterpret the top bit as the sign. -/
def castSigned (w v : Nat) : Int :=
  let c := v % 2 ^ w
  if c < 2 ^ (w - 1) then (c : Int) else (c : Int) - ((2 ^ w : Nat) : Int)

/-- Mirrors `storeindex_for_nonmax!` `MAX_USIZE` for a signed primitive of
width `w`: `Self::MAX.get() = 2 ^ (w - 1) - 2`. -/
def nmIMaxUsize (w : Nat) : Nat := min (2 ^ (w - 1) - 2) usizeMax

/-- Mirrors the nonmax signed `try_from_usize`: truncating cast, then failure
only on the primitive's maximum (`2 ^ (w - 1) - 1`). -/
def nmITryFromUsize (w : Nat) (v : Nat) : Option Int :=
  if castSigned w v = ((2 ^ (w - 1) - 1 : Nat) : Int) then none
  else some (castSigned w v)

/-- Mirrors the nonmax signed `to_usize`: `usize::try_from(self.get()).unwrap()`
panics (`none`) on negative values. -/
def nmIToUsize (x : Int) : Option Nat :=
  if 0 ≤ x ∧ x ≤ ((usizeMax : Nat) : Int) then some x.toNat else none

end Codec

/-! ## Push sequences (capacity ceiling) -/

section PushSeq

variable [Inhabited T]

/-- One push, at the back (`true`) or front (`false`). -/
def pushStep (m : Nat) (lv : LinkedVec T) : Bool × T → Option (LinkedVec T)
  | (true, v) => pushBack m lv v
  | (false, v) => pushFront m lv v

/-- Pushing a list of elements one by one. -/
def pushSeq (m : Nat) (lv : LinkedVec T) : List (Bool × T) → Option (LinkedVec T)
  | [] => some lv
  | o :: rest => (pushStep m lv o).bind (fun lv2 => pushSeq m lv2 rest)

@[simp] theorem insertNodeAfter_length (lv : LinkedVec T) (n : Nat) (t : Option Nat) :
    (insertNodeAfter lv n t).data.length = lv.data.length := by
  rw [insertNodeAfter, pair, pair, setPrev_length, setNext_length,
    setPrev_length, setNext_length]

@[simp] theorem insertNodeBefore_length (lv : LinkedVec T) (n : Nat) (t : Option Nat) :
    (insertNodeBefore lv n t).data.length = lv.data.length := by
  rw [insertNodeBefore, pair, pair, setPrev_length, setNext_length,
    setPrev_length, setNext_length]

theorem pushBack_none_iff (m : Nat) (lv : LinkedVec T) (v : T) :
    pushBack m lv v = none ↔ m + 1 ≤ lv.data.length := by
  rw [pushBack, pushP]
  by_cases hc : lv.data.length > m
  · rw [if_pos hc]
    simp only [Option.map_none']
    exact ⟨fun _ => by omega, fun _ => trivial⟩
  · rw [if_neg hc]
    simp only [Option.map_some']
    exact ⟨fun h => Option.noConfusion h, fun h => by omega⟩

theorem pushFront_none_iff (m : Nat) (lv : LinkedVec T) (v : T) :
    pushFront m lv v = none ↔ m + 1 ≤ lv.data.length := by
  rw [pushFront, pushP]
  by_cases hc : lv.data.length > m
  · rw [if_pos hc]
    simp only [Option.map_none']
    exact ⟨fun _ => by omega, fun _ => trivial⟩
  · rw [if_neg hc]
    simp only [Option.map_some']
    exact ⟨fun h => Option.noConfusion h, fun h => by omega⟩

theorem pushStep_some_length {m : Nat} {lv lv2 : LinkedVec T} {o : Bool × T}
    (h : pushStep m lv o = some lv2) :
    lv2.data.length = lv.data.length + 1 ∧ lv.data.length ≤ m := by
  obtain ⟨b, v⟩ := o
  cases b
  · rw [pushStep] at h
    have hle : lv.data.length ≤ m := pushFront_le h
    rw [pushFront, pushP, if_neg (by omega : ¬ lv.data.length > m)] at h
    simp only [Option.map_some'] at h
    cases Option.some.inj h
    refine ⟨?_, hle⟩
    rw [insertNodeBefore_length]
    simp
  · rw [pushStep] at h
    have hle : lv.data.length ≤ m := pushBack_le h
    rw [pushBack, pushP, if_neg (by omega : ¬ lv.data.length > m)] at h
    simp only [Option.map_some'] at h
    cases Option.some.inj h
    refine ⟨?_, hle⟩
    rw [insertNodeAfter_length]
    simp

theorem pushStep_none_iff (m : Nat) (lv : LinkedVec T) (o : Bool × T) :
    pushStep m lv o = none ↔ m + 1 ≤ lv.data.length := by
  obtain ⟨b, v⟩ := o
  cases b
  · exact pushFront_none_iff m lv v
  · exact pushBack_none_iff m lv v

theorem pushSeq_ok (m : Nat) :
    ∀ (ops : List (Bool × T)) (lv : LinkedVec T),
      lv.data.length + ops.length ≤ m + 1 →
      ∃ lv2, pushSeq m lv ops = some lv2 ∧
        lv2.data.length = lv.data.length + ops.length := by
  intro ops
  induction ops with
  | nil => intro lv _; exact ⟨lv, rfl, by simp⟩
  | cons o rest ih =>
    intro lv hlen
    cases hstep : pushStep m lv o with
    | none =>
      rw [pushStep_none_iff] at hstep
      simp at hlen
      omega
    | some lv2 =>
      obtain ⟨hlen2, _⟩ := pushStep_some_length hstep
      obtain ⟨lv3, hseq, hlen3⟩ := ih lv2 (by simp at hlen; omega)
      refine ⟨lv3, ?_, by simp; omega⟩
      rw [pushSeq, hstep]
      exact hseq

theorem pushSeq_overflow (m : Nat) :
    ∀ (ops : List (Bool × T)) (lv : LinkedVec T),
      lv.data.length ≤ m + 1 → m + 1 < lv.data.length + ops.length →
      pushSeq m lv ops = none := by
  intro ops
  induction ops with
  | nil =>
    intro lv hle hover
    simp at hover
    omega
  | cons o rest ih =>
    intro lv hle hover
    by_cases hfull : m + 1 ≤ lv.data.length
    · rw [pushSeq, (pushStep_none_iff m lv o).mpr hfull]
      rfl
    · cases hstep : pushStep m lv o with
      | none => rw [pushSeq, hstep]; rfl
      | some lv2 =>
        obtain ⟨hlen2, _⟩ := pushStep_some_length hstep
        rw [pushSeq, hstep]
        show pushSeq m lv2 rest = none
        apply ih lv2 (by omega)
        simp at hover
        omega

end PushSeq

/-! ## A concrete one-element chain, shared by several witnesses -/

theorem chainRep_one [Inhabited T] (v : T) :
    ChainRep (⟨[⟨v, none, none⟩], some 0, some 0⟩ : LinkedVec T) [0] := by
  refine ⟨?_, ?_, ?_, ?_, ?_, ?_, ?_⟩
  · intro p hp; simp at hp; simp [hp]
  · simp
  · simp
  · rfl
  · rfl
  · intro k x hx
    have hk := getSome_lt hx
    simp at hk
    subst hk
    simp at hx
    subst hx
    rfl
  · intro k x hx
    have hk := getSome_lt hx
    simp at hk
    subst hk
    simp at hx
    subst hx
    rfl

/-! ## Claim theorems -/

/-- C1, counterexample: the claim replays `pop` as removing the reference
deque's last element, but `pop` removes the *physically last* slot, which
after `push_back 1; push_front 2` holds the payload 2 (the logical head).
Running `[push_back 1, push_front 2, pop]` the container returns 2 and is left
as `[1]`, while the model returns 1 and is left as `[2]`. -/
theorem c1_pop_model_counterexample :
    (execOps 5 (LinkedVec.new : LinkedVec Nat)
        [Op.pushBackOp 1, Op.pushFrontOp 2, Op.popOp]).map
      (fun res => (iterList res.1, res.2)) ≠
    some ((dequeExec ([] : List Nat) [Op.pushBackOp 1, Op.pushFrontOp 2, Op.popOp]).1,
      (dequeExec ([] : List Nat) [Op.pushBackOp 1, Op.pushFrontOp 2, Op.popOp]).2) := by
  decide

/-- C1, amended: (1) for every sequence of `push_front`/`push_back`/
`pop_front`/`pop_back` operations (`pop` excluded) that runs without a
capacity panic, forward iteration agrees element-for-element with the
reference deque after the whole sequence — hence, applied to every prefix,
after every operation — and each pop returns exactly the value the model
removes; (2) `pop` on a reachable non-empty container removes the payload of
the physically last slot from its logical position `k`, returning that payload
and preserving the relative order of the other elements (in general `k` is not
the last logical position, so `pop` is not the model's `pop_back`). -/
theorem c1_order_equivalence_amended :
    (∀ (m : Nat) (ops : List (Op Nat)), (∀ o ∈ ops, o ≠ Op.popOp) →
      ∀ res : LinkedVec Nat × List (Option Nat),
        execOps m LinkedVec.new ops = some res →
        iterList res.1 = (dequeExec [] ops).1 ∧ res.2 = (dequeExec [] ops).2) ∧
    (∀ (m : Nat) (ops : List (Op Nat)) (res : LinkedVec Nat × List (Option Nat)),
      execOps m LinkedVec.new ops = some res → res.1.data.length ≠ 0 →
      ∃ (k : Nat) (t : Nat) (lv2 : LinkedVec Nat),
        pop res.1 = some (t, lv2) ∧
        (iterList res.1)[k]? = some t ∧
        iterList lv2 = (iterList res.1).eraseIdx k ∧
        (iterPList res.1)[k]? = some (res.1.data.length - 1)) := by
  constructor
  · intro m ops hops res hres
    obtain ⟨qs, hCq, hpay, hout⟩ :=
      execOps_refines m ops hops LinkedVec.new [] chainRep_new res hres
    refine ⟨?_, hout⟩
    rw [iterList_chain hCq, hpay]
    rfl
  · intro m ops res hres hne
    obtain ⟨ps, hC⟩ := execOps_wf m ops LinkedVec.new [] chainRep_new res hres
    have hpsne : ps ≠ [] := by
      intro h
      rw [h] at hC
      exact hne hC.lengthEq.symm
    obtain ⟨k, t, lv2, qs, hpop, hC2, hk, hpay, hkt⟩ := pop_chain hC hpsne
    refine ⟨k, t, lv2, hpop, ?_, ?_, ?_⟩
    · rw [iterList_chain hC]
      exact hkt
    · rw [iterList_chain hC2, iterList_chain hC, hpay]
    · rw [iterPList_chain hC]
      exact hk

/-- C1, witness for the amended theorem: the run
`[push_back 1, push_front 2, pop_back]` succeeds, and both its final iteration
order and its outputs equal the reference deque's. -/
theorem c1_order_equivalence_amended_witness :
    iterList (⟨[⟨2, none, none⟩], some 0, some 0⟩ : LinkedVec Nat) =
      (dequeExec ([] : List Nat)
        [Op.pushBackOp 1, Op.pushFrontOp 2, Op.popBackOp]).1 ∧
    [none, none, some 1] =
      (dequeExec ([] : List Nat)
        [Op.pushBackOp 1, Op.pushFrontOp 2, Op.popBackOp]).2 :=
  c1_order_equivalence_amended.1 5
    [Op.pushBackOp 1, Op.pushFrontOp 2, Op.popBackOp] (by decide)
    (⟨[⟨2, none, none⟩], some 0, some 0⟩, [none, none, some 1]) (by decide)

/-- C3: from an empty container, any interleaving of `push_back`/`push_front`
of length at most `MAX_USIZE + 1` succeeds entirely (so the failure is never
early), any interleaving of length `MAX_USIZE + 2` fails (the last push hits
the capacity check), and in general a push panics with capacity overflow
exactly when the array already holds `MAX_USIZE + 1` slots. -/
theorem c3_capacity_ceiling :
    (∀ (m : Nat) (ops : List (Bool × Nat)), ops.length ≤ m + 1 →
      ∃ lv2 : LinkedVec Nat, pushSeq m LinkedVec.new ops = some lv2 ∧
        lv2.data.length = ops.length) ∧
    (∀ (m : Nat) (ops : List (Bool × Nat)), ops.length = m + 2 →
      pushSeq m LinkedVec.new ops = none) ∧
    (∀ (m : Nat) (lv : LinkedVec Nat) (v : Nat),
      (pushBack m lv v = none ↔ m + 1 ≤ lv.data.length) ∧
      (pushFront m lv v = none ↔ m + 1 ≤ lv.data.length)) := by
  refine ⟨?_, ?_, ?_⟩
  · intro m ops hlen
    obtain ⟨lv2, hseq, hlen2⟩ := pushSeq_ok m ops LinkedVec.new
      (by simpa [LinkedVec.new] using hlen)
    exact ⟨lv2, hseq, by simpa [LinkedVec.new] using hlen2⟩
  · intro m ops hlen
    apply pushSeq_overflow m ops LinkedVec.new (by simp [LinkedVec.new])
      (by simp [LinkedVec.new, hlen])
  · intro m lv v
    exact ⟨pushBack_none_iff m lv v, pushFront_none_iff m lv v⟩

/-- C3, witness: with `MAX_USIZE = 1`, two pushes succeed and any three-push
sequence fails, and a push onto a two-slot container reports overflow. -/
theorem c3_capacity_ceiling_witness :
    (∃ lv2 : LinkedVec Nat, pushSeq 1 LinkedVec.new [(true, 0), (false, 1)] = some lv2 ∧
      lv2.data.length = 2) ∧
    pushSeq 1 LinkedVec.new [(true, 0), (false, 1), (true, 2)] = none ∧
    (pushBack 1 (⟨[⟨5, none, none⟩, ⟨6, none, none⟩], some 0, some 1⟩ : LinkedVec Nat) 7
      = none) := by
  refine ⟨?_, ?_, ?_⟩
  · exact c3_capacity_ceiling.1 1 [(true, 0), (false, 1)] (by decide)
  · exact c3_capacity_ceiling.2.1 1 [(true, 0), (false, 1), (true, 2)] (by decide)
  · exact (c3_capacity_ceiling.2.2 1 _ 7).1.mpr (by decide)

section ReachSection

variable [Inhabited T]

/-- States reachable from the empty container through the public operations
(claim C4's list): pushes, the three pops, `swap_remove`, `swap_p`, `clear`,
`extend` and `append` (both containers of an `append` must be reachable; the
drained right container is left equal to the fresh empty container). -/
inductive Reach (m : Nat) : LinkedVec T → Prop where
  | base : Reach m LinkedVec.new
  | pushF {lv lv2 : LinkedVec T} {v : T} :
      Reach m lv → pushFront m lv v = some lv2 → Reach m lv2
  | pushB {lv lv2 : LinkedVec T} {v : T} :
      Reach m lv → pushBack m lv v = some lv2 → Reach m lv2
  | popF {lv lv2 : LinkedVec T} {t : T} :
      Reach m lv → popFront lv = some (t, lv2) → Reach m lv2
  | popB {lv lv2 : LinkedVec T} {t : T} :
      Reach m lv → popBack lv = some (t, lv2) → Reach m lv2
  | popLast {lv lv2 : LinkedVec T} {t : T} :
      Reach m lv → pop lv = some (t, lv2) → Reach m lv2
  | swapRem {lv lv2 : LinkedVec T} {i : Nat} {t : T} :
      Reach m lv → swapRemove lv i = some (t, lv2) → Reach m lv2
  | swapPay {lv lv2 : LinkedVec T} {a b : Nat} :
      Reach m lv → swapP lv a b = some lv2 → Reach m lv2
  | clearOp {lv : LinkedVec T} :
      Reach m lv → Reach m (clear lv)
  | extendOp {lv lv2 : LinkedVec T} {l : List T} :
      Reach m lv → extendList m lv l = some lv2 → Reach m lv2
  | appendLeft {a b a2 b2 : LinkedVec T} :
      Reach m a → Reach m b → appendOp m a b = some (a2, b2) → Reach m a2
  | appendRight {a b a2 b2 : LinkedVec T} :
      Reach m a → Reach m b → appendOp m a b = some (a2, b2) → Reach m b2

/-- A successful `extend` from a chain state yields a chain state. -/
theorem extendList_wf {m : Nat} :
    ∀ {l : List T} {lv lv2 : LinkedVec T} {ps : List Nat}, ChainRep lv ps →
      extendList m lv l = some lv2 → ∃ qs : List Nat, ChainRep lv2 qs := by
  intro l
  induction l with
  | nil =>
    intro lv lv2 ps hC h
    cases Option.some.inj h
    exact ⟨ps, hC⟩
  | cons v rest ih =>
    intro lv lv2 ps hC h
    rw [extendList] at h
    cases hpush : pushBack m lv v with
    | none => rw [hpush] at h; exact Option.noConfusion h
    | some lvm =>
      rw [hpush] at h
      obtain ⟨lvm', hpush', hCm, _⟩ := pushBack_chain hC m v (pushBack_le hpush)
      have : lvm' = lvm := Option.some.inj (hpush'.symm.trans hpush)
      rw [this] at hCm
      exact ih hCm h

/-- Every reachable container satisfies the chain invariant. -/
theorem Reach.wf {m : Nat} {lv : LinkedVec T} (h : Reach m lv) :
    ∃ ps : List Nat, ChainRep lv ps := by
  induction h with
  | base => exact ⟨[], chainRep_new⟩
  | pushF _ hpush ih =>
    obtain ⟨ps, hC⟩ := ih
    obtain ⟨lv2', hpush', hC2, _⟩ := pushFront_chain hC _ _ (pushFront_le hpush)
    have := Option.some.inj (hpush'.symm.trans hpush)
    rw [this] at hC2
    exact ⟨_, hC2⟩
  | pushB _ hpush ih =>
    obtain ⟨ps, hC⟩ := ih
    obtain ⟨lv2', hpush', hC2, _⟩ := pushBack_chain hC _ _ (pushBack_le hpush)
    have := Option.some.inj (hpush'.symm.trans hpush)
    rw [this] at hC2
    exact ⟨_, hC2⟩
  | popF hre hpop ih =>
    obtain ⟨ps, hC⟩ := ih
    rename_i lva lvb0 t0
    have hne : ps ≠ [] := by
      intro h0
      rw [h0] at hC
      rw [popFront_none (hC.lengthEq ▸ rfl)] at hpop
      exact Option.noConfusion hpop
    obtain ⟨t2, lvb, qs, hpop', hC2, _, _⟩ := popFront_chain hC hne
    have hpair := Option.some.inj (hpop'.symm.trans hpop)
    have hlv : lvb = lvb0 := congrArg Prod.snd hpair
    rw [← hlv]
    exact ⟨qs, hC2⟩
  | popB hre hpop ih =>
    obtain ⟨ps, hC⟩ := ih
    rename_i lva lvb0 t0
    have hne : ps ≠ [] := by
      intro h0
      rw [h0] at hC
      rw [popBack_none (hC.lengthEq ▸ rfl)] at hpop
      exact Option.noConfusion hpop
    obtain ⟨t2, lvb, qs, hpop', hC2, _, _⟩ := popBack_chain hC hne
    have hpair := Option.some.inj (hpop'.symm.trans hpop)
    have hlv : lvb = lvb0 := congrArg Prod.snd hpair
    rw [← hlv]
    exact ⟨qs, hC2⟩
  | popLast hre hpop ih =>
    obtain ⟨ps, hC⟩ := ih
    rename_i lva lvb0 t0
    have hne : ps ≠ [] := by
      intro h0
      rw [h0] at hC
      rw [pop_none (hC.lengthEq ▸ rfl)] at hpop
      exact Option.noConfusion hpop
    obtain ⟨k, t2, lvb, qs, hpop', hC2, _, _, _⟩ := pop_chain hC hne
    have hpair := Option.some.inj (hpop'.symm.trans hpop)
    have hlv : lvb = lvb0 := congrArg Prod.snd hpair
    rw [← hlv]
    exact ⟨qs, hC2⟩
  | swapRem hre hrem ih =>
    obtain ⟨ps, hC⟩ := ih
    rename_i lva lvb i t
    have hi : i < lva.data.length := by
      by_contra hc
      rw [swapRemove, if_pos (by omega)] at hrem
      exact Option.noConfusion hrem
    obtain ⟨k, lvb', qs, hrem', hC2, _, _⟩ := swapRemove_chain hC i hi
    have hpair := Option.some.inj (hrem'.symm.trans hrem)
    have hlv : lvb' = lvb := congrArg Prod.snd hpair
    rw [hlv] at hC2
    exact ⟨qs, hC2⟩
  | swapPay hre hswap ih =>
    obtain ⟨ps, hC⟩ := ih
    rename_i lva lvb a b
    have hab : a < lva.data.length ∧ b < lva.data.length := by
      by_contra hc
      rw [swapP, if_neg hc] at hswap
      exact Option.noConfusion hswap
    obtain ⟨lvb', hswap', hC2⟩ := swapP_chain hC a b hab.1 hab.2
    have : lvb' = lvb := Option.some.inj (hswap'.symm.trans hswap)
    rw [this] at hC2
    exact ⟨ps, hC2⟩
  | clearOp hre ih =>
    exact ⟨[], clear_chain _⟩
  | extendOp hre hext ih =>
    obtain ⟨ps, hC⟩ := ih
    exact extendList_wf hC hext
  | appendLeft hrea hreb happ iha ihb =>
    rename_i a0 b0 a20 b20
    obtain ⟨psA, hCa⟩ := iha
    rw [appendOp] at happ
    cases hext : extendList m a0 (intoList b0) with
    | none => rw [hext] at happ; exact Option.noConfusion happ
    | some a2' =>
      rw [hext] at happ
      simp only [Option.map_some'] at happ
      have ha2 : a2' = _ := (Prod.mk.inj (Option.some.inj happ)).1
      rw [← ha2]
      exact extendList_wf hCa hext
  | appendRight hrea hreb happ iha ihb =>
    rename_i a0 b0 a20 b20
    rw [appendOp] at happ
    cases hext : extendList m a0 (intoList b0) with
    | none => rw [hext] at happ; exact Option.noConfusion happ
    | some a2' =>
      rw [hext] at happ
      simp only [Option.map_some'] at happ
      have hb2 : LinkedVec.new = _ := (Prod.mk.inj (Option.some.inj happ)).2
      rw [← hb2]
      exact ⟨[], chainRep_new⟩

/-- Link symmetry, exactly as the spec states it, over all in-bounds slots. -/
def LinkSym (lv : LinkedVec T) : Prop :=
  ∀ p q : Nat, p < lv.data.length →
    ((nodeAt lv p).next = some q → (nodeAt lv q).prev = some p) ∧
    ((nodeAt lv p).prev = some q → (nodeAt lv q).next = some p)

theorem chainRep_linkSym {lv : LinkedVec T} {ps : List Nat}
    (hC : ChainRep lv ps) : LinkSym lv := by
  intro p q hp
  obtain ⟨k, hk⟩ := hC.pos_of_lt p hp
  constructor
  · intro hnext
    rw [hC.nextOK k p hk] at hnext
    have hq := hC.prevOK (k + 1) q hnext
    rw [hq, if_neg (by omega : ¬ k + 1 = 0)]
    simp only [Nat.add_sub_cancel]
    exact hk
  · intro hprev
    rw [hC.prevOK k p hk] at hprev
    by_cases hk0 : k = 0
    · rw [if_pos hk0] at hprev
      exact Option.noConfusion hprev
    · rw [if_neg hk0] at hprev
      have hq := hC.nextOK (k - 1) q hprev
      rw [hq, show k - 1 + 1 = k by omega]
      exact hk

end ReachSection

/-- C4: link symmetry holds in every container reachable from the empty
container by the public operations: whenever `storage[p].next = Some q` then
`storage[q].prev = Some p`, and symmetrically for `prev`. -/
theorem c4_link_symmetry {T : Type} [Inhabited T] (m : Nat) (lv : LinkedVec T)
    (h : Reach m lv) : LinkSym lv := by
  obtain ⟨ps, hC⟩ := h.wf
  exact chainRep_linkSym hC

/-- C4, witness: link symmetry of the concrete reachable container obtained by
one `push_back` on the empty container. -/
theorem c4_link_symmetry_witness :
    LinkSym (⟨[⟨(7 : Nat), none, none⟩], some 0, some 0⟩ : LinkedVec Nat) := by
  have hstep : pushBack 5 (LinkedVec.new : LinkedVec Nat) 7 =
      some ⟨[⟨7, none, none⟩], some 0, some 0⟩ := by decide
  exact c4_link_symmetry 5 _ (Reach.pushB Reach.base hstep)

/-- C5: whenever `len + additional` exceeds `MAX_USIZE + 1`, `try_reserve`
reports the capacity-overflow error regardless of what the allocator would
have said, and that error is distinguishable from allocator exhaustion.
(`Vec::try_reserve` never touches the contents, so the model returns no
modified container at all.) -/
theorem c5_try_reserve_overflow {T : Type} [Inhabited T] (m : Nat)
    (lv : LinkedVec T) (additional : Nat) (hm : m ≤ usizeMax)
    (hlen : lv.data.length ≤ m + 1)
    (hover : m + 1 < lv.data.length + additional) :
    (∀ allocOk : Bool,
      tryReserve m lv additional allocOk = Except.error ReserveErr.capacityOverflow) ∧
    ReserveErr.capacityOverflow ≠ ReserveErr.allocError := by
  refine ⟨?_, by intro h; exact ReserveErr.noConfusion h⟩
  intro allocOk
  rw [tryReserve, if_pos (by omega : min (m + 1) usizeMax - lv.data.length < additional)]

/-- C5, witness: a container of length 2 with `MAX_USIZE = 3` asked for 3 more
elements overflows the index space for both allocator outcomes. -/
theorem c5_try_reserve_overflow_witness :
    (∀ allocOk : Bool,
      tryReserve 3 (⟨[⟨(1 : Nat), none, none⟩, ⟨2, none, none⟩], some 0, some 1⟩ :
        LinkedVec Nat) 3 allocOk = Except.error ReserveErr.capacityOverflow) ∧
    ReserveErr.capacityOverflow ≠ ReserveErr.allocError :=
  c5_try_reserve_overflow 3 _ 3 (by decide) (by decide) (by decide)

/-- C2, counterexample: for the 8-bit sentinel-free (nonmax) index type,
`MAX_USIZE = 254`, but `try_from_usize` first truncates with an `as` cast, so
`try_from_usize(256) = Ok(0)` — an out-of-range input accepted with a wrong
value instead of an error — and the plain and sentinel-free variants of the
same width differ observably at `v = 255` (plain `u8` accepts it, `NonMaxU8`
rejects it).  The trait documentation permits this: `try_from_usize` "must
succeed if value <= get_max" and is unconstrained above it. -/
theorem c2_index_roundtrip_counterexample :
    ¬ ((∀ v : Nat, v ≤ usizeMax → v > nmUMaxUsize 8 → nmUTryFromUsize 8 v = none) ∧
       (∀ v : Nat, v ≤ usizeMax →
         (plainTryFromUsize (2 ^ 8 - 1) v).isSome = (nmUTryFromUsize 8 v).isSome)) := by
  intro h
  exact absurd (h.1 256 (by decide) (by decide)) (by decide)

/-- C2, amended: the round trip `to_usize (from_usize v) = v` holds for every
`v ≤ MAX_USIZE` on the plain variants, the unsigned nonmax variants and the
signed nonmax variants; the plain variant rejects every `v > T::MAX`; the
unsigned nonmax variant's checked conversion fails exactly when the low `w`
bits of `v` are all ones (so out-of-range inputs other than those are silently
truncated, not rejected); and the plain and nonmax variants of the same width
agree on every `v` up to the nonmax `MAX_USIZE` (but not beyond, per the
counterexample). -/
theorem c2_index_roundtrip_amended :
    (∀ tmax v : Nat, v ≤ plainMaxUsize tmax →
      plainTryFromUsize tmax v = some v ∧ plainToUsize v = some v) ∧
    (∀ tmax v : Nat, v > tmax → plainTryFromUsize tmax v = none) ∧
    (∀ w v : Nat, 1 ≤ w → v ≤ nmUMaxUsize w →
      nmUTryFromUsize w v = some v ∧ nmUToUsize v = some v) ∧
    (∀ w v : Nat, nmUTryFromUsize w v = none ↔ v % 2 ^ w = 2 ^ w - 1) ∧
    (∀ w v : Nat, 2 ≤ w → v ≤ nmIMaxUsize w →
      nmITryFromUsize w v = some (v : Int) ∧ nmIToUsize (v : Int) = some v) ∧
    (∀ w v : Nat, 1 ≤ w → v ≤ nmUMaxUsize w →
      plainTryFromUsize (2 ^ w - 1) v = some v ∧ nmUTryFromUsize w v = some v) := by
  have hpow : ∀ w : Nat, 1 ≤ w → 2 ≤ 2 ^ w := by
    intro w hw
    calc 2 = 2 ^ 1 := rfl
    _ ≤ 2 ^ w := Nat.pow_le_pow_right (by omega) hw
  have hnmU : ∀ w v : Nat, 1 ≤ w → v ≤ nmUMaxUsize w →
      nmUTryFromUsize w v = some v := by
    intro w v hw hv
    have h2 := hpow w hw
    have hle : v ≤ 2 ^ w - 2 := le_trans hv (Nat.min_le_left _ _)
    have hlt : v < 2 ^ w := by omega
    show (if v % 2 ^ w = 2 ^ w - 1 then none else some (v % 2 ^ w)) = some v
    rw [Nat.mod_eq_of_lt hlt, if_neg (by omega : ¬ v = 2 ^ w - 1)]
  refine ⟨?_, ?_, ?_, ?_, ?_, ?_⟩
  · intro tmax v hv
    have h1 : v ≤ tmax := le_trans hv (Nat.min_le_left _ _)
    have h2 : v ≤ usizeMax := le_trans hv (Nat.min_le_right _ _)
    exact ⟨by rw [plainTryFromUsize, if_pos h1],
      by rw [plainToUsize, if_pos h2]⟩
  · intro tmax v hv
    rw [plainTryFromUsize, if_neg (by omega : ¬ v ≤ tmax)]
  · intro w v hw hv
    refine ⟨hnmU w v hw hv, ?_⟩
    rw [nmUToUsize, if_pos (le_trans hv (Nat.min_le_right _ _))]
  · intro w v
    show (if v % 2 ^ w = 2 ^ w - 1 then none else some (v % 2 ^ w)) = none ↔ _
    by_cases hc : v % 2 ^ w = 2 ^ w - 1
    · rw [if_pos hc]
      exact ⟨fun _ => hc, fun _ => rfl⟩
    · rw [if_neg hc]
      exact ⟨fun h => Option.noConfusion h, fun h => absurd h hc⟩
  · intro w v hw hv
    have h2 : 2 ≤ 2 ^ (w - 1) := hpow (w - 1) (by omega)
    have hle : v ≤ 2 ^ (w - 1) - 2 := le_trans hv (Nat.min_le_left _ _)
    have hltw1 : v < 2 ^ (w - 1) := by omega
    have hltw : v < 2 ^ w := by
      have : 2 ^ (w - 1) ≤ 2 ^ w := Nat.pow_le_pow_right (by omega) (by omega)
      omega
    have hcast : castSigned w v = (v : Int) := by
      show (if v % 2 ^ w < 2 ^ (w - 1) then ((v % 2 ^ w : Nat) : Int)
        else ((v % 2 ^ w : Nat) : Int) - ((2 ^ w : Nat) : Int)) = (v : Int)
      rw [Nat.mod_eq_of_lt hltw, if_pos hltw1]
    constructor
    · rw [nmITryFromUsize, hcast]
      rw [if_neg ?hne]
      case hne =>
        intro he
        have := Nat.cast_inj.mp he
        omega
    · have hbound : (0 : Int) ≤ (v : Int) ∧ (v : Int) ≤ ((usizeMax : Nat) : Int) := by
        refine ⟨by exact_mod_cast Nat.zero_le v, ?_⟩
        exact_mod_cast le_trans hv (Nat.min_le_right _ _)
      rw [nmIToUsize, if_pos hbound, Int.toNat_natCast]
  · intro w v hw hv
    have h2 := hpow w hw
    have hle : v ≤ 2 ^ w - 2 := le_trans hv (Nat.min_le_left _ _)
    refine ⟨?_, hnmU w v hw hv⟩
    rw [plainTryFromUsize, if_pos (by omega : v ≤ 2 ^ w - 1)]

/-- C2, witness for the amended theorem, at width 8 and concrete values. -/
theorem c2_index_roundtrip_amended_witness :
    (plainTryFromUsize 255 200 = some 200 ∧ plainToUsize 200 = some 200) ∧
    plainTryFromUsize 255 300 = none ∧
    (nmUTryFromUsize 8 254 = some 254 ∧ nmUToUsize 254 = some 254) ∧
    (nmUTryFromUsize 8 255 = none ↔ 255 % 2 ^ 8 = 2 ^ 8 - 1) ∧
    (nmITryFromUsize 8 126 = some (126 : Int) ∧ nmIToUsize (126 : Int) = some 126) ∧
    (plainTryFromUsize (2 ^ 8 - 1) 100 = some 100 ∧ nmUTryFromUsize 8 100 = some 100) := by
  refine ⟨?_, ?_, ?_, ?_, ?_, ?_⟩
  · exact c2_index_roundtrip_amended.1 255 200 (by decide)
  · exact c2_index_roundtrip_amended.2.1 255 300 (by decide)
  · exact c2_index_roundtrip_amended.2.2.1 8 254 (by decide) (by decide)
  · exact c2_index_roundtrip_amended.2.2.2.1 8 255
  · exact c2_index_roundtrip_amended.2.2.2.2.1 8 126 (by decide) (by decide)
  · exact c2_index_roundtrip_amended.2.2.2.2.2 8 100 (by decide) (by decide)

/-- Builds a container by `push_back`-ing each element of a list into a fresh
empty container, with the `usize`-sized index type (never overflows here). -/
def mkVec (l : List Nat) : LinkedVec Nat :=
  (extendList usizeMax LinkedVec.new l).getD LinkedVec.new

/-- C6: the Debug representation is the list of (physical index, payload)
pairs enumerated in logical order — the keys are exactly the chain, in chain
order; and for the concrete scenario (push_back 0..10, pop_front, push_front 0)
it equals the mapping claimed in the spec. -/
theorem c6_debug_map :
    (∀ (T : Type) [Inhabited T] (lv : LinkedVec T) (ps : List Nat), ChainRep lv ps →
      debugPairs lv = ps.map (fun i => (i, (nodeAt lv i).payload))) ∧
    debugPairs ((((popFront (mkVec [0, 1, 2, 3, 4, 5, 6, 7, 8, 9])).map Prod.snd).bind
        (fun lv => pushFront usizeMax lv 0)).getD LinkedVec.new) =
      [(9, 0), (1, 1), (2, 2), (3, 3), (4, 4), (5, 5), (6, 6), (7, 7), (8, 8), (0, 9)] := by
  constructor
  · intro T _ lv ps hC
    unfold debugPairs
    rw [iterPList_chain hC]
  · decide

/-- C6, witness: the general conjunct applied to the concrete one-element
container. -/
theorem c6_debug_map_witness :
    debugPairs (⟨[⟨(7 : Nat), none, none⟩], some 0, some 0⟩ : LinkedVec Nat) =
      [0].map (fun i =>
        (i, (nodeAt (⟨[⟨(7 : Nat), none, none⟩], some 0, some 0⟩ : LinkedVec Nat) i).payload)) :=
  c6_debug_map.1 Nat _ [0] (chainRep_one 7)

/-- C7: ghost-state transitions of `VecCursor`: `move_next` from the ghost
lands on the head with logical index 0 and from the tail slot lands on the
ghost; `move_prev` symmetrically (ghost → tail with logical index `len - 1`,
head → ghost); `peek_next`/`peek_prev` are the pure clone-move-read
composition, so they return the adjacent payload without touching the cursor;
and the concrete `[1,2,3,4,5,6]` scenario behaves exactly as the spec says. -/
theorem c7_cursor_ghost_transitions :
    (∀ (T : Type) [Inhabited T] (lv : LinkedVec T) (c : VecCursor),
      c.current_pa = none →
      cMoveNext lv c = ⟨0, lv.head⟩ ∧
      cMovePrev lv c = ⟨lv.data.length - 1, lv.tail⟩) ∧
    (∀ (T : Type) [Inhabited T] (lv : LinkedVec T) (ps : List Nat), ChainRep lv ps →
      (∀ (t : Nat) (c : VecCursor), lv.tail = some t → c.current_pa = some t →
        (cMoveNext lv c).current_pa = none) ∧
      (∀ (h : Nat) (c : VecCursor), lv.head = some h → c.current_pa = some h →
        (cMovePrev lv c).current_pa = none)) ∧
    (∀ (T : Type) [Inhabited T] (lv : LinkedVec T) (c : VecCursor),
      cPeekNext lv c = cCurrent lv (cMoveNext lv c) ∧
      cPeekPrev lv c = cCurrent lv (cMovePrev lv c)) ∧
    (cCurrent (mkVec [1, 2, 3, 4, 5, 6]) (cursorFront (mkVec [1, 2, 3, 4, 5, 6])) = some 1 ∧
     cPeekNext (mkVec [1, 2, 3, 4, 5, 6]) (cursorFront (mkVec [1, 2, 3, 4, 5, 6])) = some 2 ∧
     cPeekPrev (mkVec [1, 2, 3, 4, 5, 6]) (cursorFront (mkVec [1, 2, 3, 4, 5, 6])) = none ∧
     cIndexL (cursorFront (mkVec [1, 2, 3, 4, 5, 6])) = some 0 ∧
     cCurrent (mkVec [1, 2, 3, 4, 5, 6])
       (cMovePrev (mkVec [1, 2, 3, 4, 5, 6]) (cursorFront (mkVec [1, 2, 3, 4, 5, 6]))) = none ∧
     cPeekNext (mkVec [1, 2, 3, 4, 5, 6])
       (cMovePrev (mkVec [1, 2, 3, 4, 5, 6]) (cursorFront (mkVec [1, 2, 3, 4, 5, 6]))) = some 1 ∧
     cPeekPrev (mkVec [1, 2, 3, 4, 5, 6])
       (cMovePrev (mkVec [1, 2, 3, 4, 5, 6]) (cursorFront (mkVec [1, 2, 3, 4, 5, 6]))) = some 6 ∧
     cIndexL (cMovePrev (mkVec [1, 2, 3, 4, 5, 6])
       (cursorFront (mkVec [1, 2, 3, 4, 5, 6]))) = none) := by
  refine ⟨?_, ?_, ?_, ?_⟩
  · intro T _ lv c hc
    obtain ⟨la, pa⟩ := c
    simp only at hc
    subst hc
    exact ⟨rfl, rfl⟩
  · intro T _ lv ps hC
    constructor
    · intro t c ht hc
      obtain ⟨la, pa⟩ := c
      simp only at hc
      subst hc
      show (nodeAt lv t).next = none
      rw [hC.tailOK] at ht
      have hlt := getSome_lt ht
      rw [hC.nextOK (ps.length - 1) t ht, show ps.length - 1 + 1 = ps.length by omega]
      exact List.getElem?_eq_none (by omega)
    · intro h c hh hc
      obtain ⟨la, pa⟩ := c
      simp only at hc
      subst hc
      show (nodeAt lv h).prev = none
      rw [hC.headOK] at hh
      rw [hC.prevOK 0 h hh, if_pos rfl]
  · intro T _ lv c
    exact ⟨rfl, rfl⟩
  · decide

/-- C7, witness: the ghost and boundary transitions applied to the concrete
one-element container. -/
theorem c7_cursor_ghost_transitions_witness :
    (cMoveNext (⟨[⟨(7 : Nat), none, none⟩], some 0, some 0⟩ : LinkedVec Nat) ⟨5, none⟩ =
      ⟨0, some 0⟩ ∧
     cMovePrev (⟨[⟨(7 : Nat), none, none⟩], some 0, some 0⟩ : LinkedVec Nat) ⟨5, none⟩ =
      ⟨0, some 0⟩) ∧
    (cMoveNext (⟨[⟨(7 : Nat), none, none⟩], some 0, some 0⟩ : LinkedVec Nat)
      ⟨0, some 0⟩).current_pa = none ∧
    (cMovePrev (⟨[⟨(7 : Nat), none, none⟩], some 0, some 0⟩ : LinkedVec Nat)
      ⟨0, some 0⟩).current_pa = none := by
  refine ⟨?_, ?_, ?_⟩
  · exact c7_cursor_ghost_transitions.1 Nat _ ⟨5, none⟩ rfl
  · exact (c7_cursor_ghost_transitions.2.1 Nat _ [0] (chainRep_one 7)).1 0 ⟨0, some 0⟩ rfl rfl
  · exact (c7_cursor_ghost_transitions.2.1 Nat _ [0] (chainRep_one 7)).2 0 ⟨0, some 0⟩ rfl rfl

/-- C8: `A.append(&mut B)` leaves `A`'s logical sequence equal to the
concatenation of the two prior logical sequences and leaves `B` literally
equal to the freshly constructed empty container (so every subsequent
operation on `B` behaves as on a fresh empty container); concretely,
`[1,2,3,4,5]` appended with `[9,8,1,2,3,4,5]` becomes
`[1,2,3,4,5,9,8,1,2,3,4,5]`. -/
theorem c8_append_concat :
    (∀ (T : Type) [Inhabited T] (m : Nat) (a b : LinkedVec T) (psA psB : List Nat),
      ChainRep a psA → ChainRep b psB →
      a.data.length + b.data.length ≤ m + 1 →
      ∃ a2 : LinkedVec T, appendOp m a b = some (a2, LinkedVec.new) ∧
        iterList a2 = iterList a ++ iterList b) ∧
    (appendOp usizeMax (mkVec [1, 2, 3, 4, 5]) (mkVec [9, 8, 1, 2, 3, 4, 5])).map
        (fun p => (iterList p.1, p.2)) =
      some ([1, 2, 3, 4, 5, 9, 8, 1, 2, 3, 4, 5], LinkedVec.new) := by
  constructor
  · intro T _ m a b psA psB hCa hCb hm
    obtain ⟨a2, qs, happ, hC2, hpay⟩ := appendOp_chain hCa hCb m hm
    refine ⟨a2, happ, ?_⟩
    rw [iterList_chain hC2, iterList_chain hCa, iterList_chain hCb, hpay]
  · decide

/-- C8, witness: the general conjunct applied to two concrete one-element
containers. -/
theorem c8_append_concat_witness :
    ∃ a2 : LinkedVec Nat,
      appendOp 5 (⟨[⟨3, none, none⟩], some 0, some 0⟩ : LinkedVec Nat)
        (⟨[⟨4, none, none⟩], some 0, some 0⟩ : LinkedVec Nat) = some (a2, LinkedVec.new) ∧
      iterList a2 =
        iterList (⟨[⟨3, none, none⟩], some 0, some 0⟩ : LinkedVec Nat) ++
        iterList (⟨[⟨4, none, none⟩], some 0, some 0⟩ : LinkedVec Nat) :=
  c8_append_concat.1 Nat 5 _ _ [0] [0] (chainRep_one 3) (chainRep_one 4) (by decide)

/-- C9: the non-empty cursor's moves wrap circularly, returning `true` on an
interior move to the adjacent logical position and `false` exactly when the
move crosses a list boundary: `move_next` from the tail lands on the head at
logical index 0, `move_prev` from the head lands on the tail at logical index
`len - 1`. -/
theorem c9_nonempty_cursor_wrap {T : Type} [Inhabited T] (lv : LinkedVec T)
    (ps : List Nat) (hC : ChainRep lv ps) (k x : Nat) (hk : ps[k]? = some x) :
    (k + 1 < ps.length →
      ∃ y : Nat, ps[k + 1]? = some y ∧ neMoveNext lv ⟨k, x⟩ = (⟨k + 1, y⟩, true)) ∧
    (k + 1 = ps.length →
      ∃ h0 : Nat, ps[0]? = some h0 ∧ neMoveNext lv ⟨k, x⟩ = (⟨0, h0⟩, false)) ∧
    (0 < k →
      ∃ y : Nat, ps[k - 1]? = some y ∧ neMovePrev lv ⟨k, x⟩ = (⟨k - 1, y⟩, true)) ∧
    (k = 0 →
      ∃ tl : Nat, ps[ps.length - 1]? = some tl ∧
        neMovePrev lv ⟨k, x⟩ = (⟨lv.data.length - 1, tl⟩, false)) ∧
    lv.data.length = ps.length := by
  have hklt := getSome_lt hk
  have hnext := hC.nextOK k x hk
  have hprev := hC.prevOK k x hk
  refine ⟨?_, ?_, ?_, ?_, hC.lengthEq.symm⟩
  · intro hlt
    obtain ⟨y, hy⟩ : ∃ y : Nat, ps[k + 1]? = some y :=
      ⟨_, List.getElem?_eq_getElem hlt⟩
    refine ⟨y, hy, ?_⟩
    rw [neMoveNext]
    show (match (nodeAt lv x).next with
      | none => ((⟨0, lv.head.getD 0⟩ : NEVecCursor), false)
      | some nxt => ((⟨k + 1, nxt⟩ : NEVecCursor), true)) = _
    rw [hnext, hy]
  · intro heq
    obtain ⟨h0, hh0⟩ : ∃ h0 : Nat, ps[0]? = some h0 :=
      ⟨_, List.getElem?_eq_getElem (by omega)⟩
    refine ⟨h0, hh0, ?_⟩
    rw [neMoveNext]
    show (match (nodeAt lv x).next with
      | none => ((⟨0, lv.head.getD 0⟩ : NEVecCursor), false)
      | some nxt => ((⟨k + 1, nxt⟩ : NEVecCursor), true)) = _
    rw [hnext, heq, List.getElem?_eq_none (le_refl _), hC.headOK, hh0]
    rfl
  · intro hpos
    obtain ⟨y, hy⟩ : ∃ y : Nat, ps[k - 1]? = some y :=
      ⟨_, List.getElem?_eq_getElem (by omega)⟩
    refine ⟨y, hy, ?_⟩
    rw [neMovePrev]
    show (match (nodeAt lv x).prev with
      | none => ((⟨lv.data.length - 1, lv.tail.getD 0⟩ : NEVecCursor), false)
      | some prv => ((⟨k - 1, prv⟩ : NEVecCursor), true)) = _
    rw [hprev, if_neg (by omega : ¬ k = 0), hy]
  · intro h0
    obtain ⟨tl, htl⟩ : ∃ tl : Nat, ps[ps.length - 1]? = some tl :=
      ⟨_, List.getElem?_eq_getElem (by omega)⟩
    refine ⟨tl, htl, ?_⟩
    rw [neMovePrev]
    show (match (nodeAt lv x).prev with
      | none => ((⟨lv.data.length - 1, lv.tail.getD 0⟩ : NEVecCursor), false)
      | some prv => ((⟨k - 1, prv⟩ : NEVecCursor), true)) = _
    rw [hprev, if_pos h0, hC.tailOK, htl]
    rfl

/-- C9, witness: on the one-element container both moves wrap, returning
`false`, landing at logical index 0 with the single slot current. -/
theorem c9_nonempty_cursor_wrap_witness :
    (∃ h0 : Nat, [0][0]? = some h0 ∧
      neMoveNext (⟨[⟨(7 : Nat), none, none⟩], some 0, some 0⟩ : LinkedVec Nat) ⟨0, 0⟩ =
        (⟨0, h0⟩, false)) ∧
    (∃ tl : Nat, [0][[0].length - 1]? = some tl ∧
      neMovePrev (⟨[⟨(7 : Nat), none, none⟩], some 0, some 0⟩ : LinkedVec Nat) ⟨0, 0⟩ =
        (⟨(⟨[⟨(7 : Nat), none, none⟩], some 0, some 0⟩ : LinkedVec Nat).data.length - 1, tl⟩,
          false)) :=
  ⟨(c9_nonempty_cursor_wrap _ [0] (chainRep_one 7) 0 0 (by decide)).2.1 (by decide),
   (c9_nonempty_cursor_wrap _ [0] (chainRep_one 7) 0 0 (by decide)).2.2.2.1 rfl⟩

/-- C10: on a container with no head and no tail (the empty container), all
four cursor constructors produce the ghost position — `current`, `index_l` and
`index_p` all return `None` — and any sequence of `move_next`/`move_prev`
steps (through the immutable or the duplicated mutable code) leaves the cursor
at the ghost position with all three observers still `None`. -/
theorem c10_empty_cursor_ghost {T : Type} [Inhabited T] (lv : LinkedVec T)
    (hh : lv.head = none) (ht : lv.tail = none) :
    (cursorFront lv = ⟨0, none⟩ ∧ cursorBack lv = ⟨0, none⟩ ∧
     cursorFrontMut lv = ⟨0, none⟩ ∧ cursorBackMut lv = ⟨0, none⟩) ∧
    (∀ c : VecCursor, c.current_pa = none →
      cCurrent lv c = none ∧ cIndexL c = none ∧ cIndexP c = none) ∧
    (∀ (moves : List Bool) (c : VecCursor), c.current_pa = none →
      (applyMoves lv moves c).current_pa = none ∧
      cCurrent lv (applyMoves lv moves c) = none ∧
      cIndexL (applyMoves lv moves c) = none ∧
      cIndexP (applyMoves lv moves c) = none) ∧
    (∀ (moves : List Bool) (c : VecCursor), c.current_pa = none →
      (applyMovesMut lv moves c).current_pa = none) := by
  have hobs : ∀ c : VecCursor, c.current_pa = none →
      cCurrent lv c = none ∧ cIndexL c = none ∧ cIndexP c = none := by
    intro c hc
    refine ⟨?_, ?_, hc⟩
    · rw [cCurrent, hc]
      rfl
    · rw [cIndexL, hc]
      rfl
  have hstep : ∀ (b : Bool) (c : VecCursor), c.current_pa = none →
      (if b then cMoveNext lv c else cMovePrev lv c).current_pa = none := by
    intro b c hc
    obtain ⟨la, pa⟩ := c
    simp only at hc
    subst hc
    cases b
    · show (cMovePrev lv ⟨la, none⟩).current_pa = none
      rw [cMovePrev]
      exact ht
    · show (cMoveNext lv ⟨la, none⟩).current_pa = none
      rw [cMoveNext]
      exact hh
  have hmoves : ∀ (moves : List Bool) (c : VecCursor), c.current_pa = none →
      (applyMoves lv moves c).current_pa = none := by
    intro moves
    induction moves with
    | nil => intro c hc; exact hc
    | cons b rest ih =>
      intro c hc
      rw [applyMoves]
      exact ih _ (hstep b c hc)
  have hstepM : ∀ (b : Bool) (c : VecCursor), c.current_pa = none →
      (if b then cMoveNextMut lv c else cMovePrevMut lv c).current_pa = none := by
    intro b c hc
    obtain ⟨la, pa⟩ := c
    simp only at hc
    subst hc
    cases b
    · show (cMovePrevMut lv ⟨la, none⟩).current_pa = none
      rw [cMovePrevMut]
      exact ht
    · show (cMoveNextMut lv ⟨la, none⟩).current_pa = none
      rw [cMoveNextMut]
      exact hh
  have hmovesM : ∀ (moves : List Bool) (c : VecCursor), c.current_pa = none →
      (applyMovesMut lv moves c).current_pa = none := by
    intro moves
    induction moves with
    | nil => intro c hc; exact hc
    | cons b rest ih =>
      intro c hc
      rw [applyMovesMut]
      exact ih _ (hstepM b c hc)
  refine ⟨⟨?_, ?_, ?_, ?_⟩, hobs, ?_, hmovesM⟩
  · rw [cursorFront, hh]
  · rw [cursorBack, ht]
  · rw [cursorFrontMut, hh]
  · rw [cursorBackMut, ht]
  · intro moves c hc
    have h1 := hmoves moves c hc
    exact ⟨h1, (hobs _ h1).1, (hobs _ h1).2.1, (hobs _ h1).2.2⟩

/-- C10, witness: the empty container's cursors, driven through a concrete
move sequence. -/
theorem c10_empty_cursor_ghost_witness :
    (cursorFront (LinkedVec.new : LinkedVec Nat) = ⟨0, none⟩ ∧
     cursorBack (LinkedVec.new : LinkedVec Nat) = ⟨0, none⟩ ∧
     cursorFrontMut (LinkedVec.new : LinkedVec Nat) = ⟨0, none⟩ ∧
     cursorBackMut (LinkedVec.new : LinkedVec Nat) = ⟨0, none⟩) ∧
    (applyMoves (LinkedVec.new : LinkedVec Nat) [true, false, true, true] ⟨0, none⟩).current_pa
      = none ∧
    cCurrent (LinkedVec.new : LinkedVec Nat)
      (applyMoves (LinkedVec.new : LinkedVec Nat) [true, false, true, true] ⟨0, none⟩) = none := by
  have h := c10_empty_cursor_ghost (LinkedVec.new : LinkedVec Nat) rfl rfl
  exact ⟨h.1, (h.2.2.1 [true, false, true, true] ⟨0, none⟩ rfl).1,
    (h.2.2.1 [true, false, true, true] ⟨0, none⟩ rfl).2.1⟩

end LinkedVecSpec
